import Mathlib

/-!
ISO9660 driver (core/fs/iso9660/iso9660.c): shallow embedding and properties.

Conventions of the embedding.

* A byte is a `Nat` (the code only ever compares bytes and adds `0x20` to a
  byte in `'A'..'Z'`, so no wrap-around occurs on bytes).
* A pointer to readable memory is the `List Nat` of the bytes readable from
  that pointer on.  Reading past the end of that list is a memory fault.
* Functions that read or write memory return `Option`: `none` is a memory
  fault (an access outside the memory handed to the function).  The loops
  over directory blocks return `Res`, which adds the case that the iteration
  bound of the embedding ran out; `find_loop_no_timeout` shows it never does.
* The block cache is a function from block numbers to the memory of the
  block; a pointer into a cached block is a block number and an offset.
* `uint32_t` arithmetic is written with an explicit `% 2 ^ 32`.  The `int`
  counters of the directory loops stay far below `2 ^ 31` for every inode the
  driver builds (`blocks` is at most `2 ^ 21`), so they are plain `Nat`.
* The definitions of the first part follow the source; those marked
  "specification-side" follow the wording of the specification and are what
  the source definitions are compared with.
-/

namespace Iso9660

/-! ## Name codec -/

/-- The C string held in a buffer: the bytes before the first zero byte. -/
def cstr (buf : List Nat) : List Nat :=
  buf.takeWhile (fun c => c != 0)

/-- Source lines 12-18: `iso_tolower`. -/
def iso_tolower (c : Nat) : Nat :=
  if 65 ≤ c ∧ c ≤ 90 then c + 32 else c

/-- Source lines 95-100: the copy loop of `iso_convert_name`.
`src` is the memory readable from the source pointer, `out` the bytes
`dst[0 .. p)` written so far.  The loop reads `*src++` until it meets a zero
byte or a `;`; it never consults `len`. -/
def convert_copy : List Nat → List Nat → Option (List Nat)
  | [], _ => none
  | c :: src, out =>
    if c = 0 then some out
    else if c = 59 then some out
    else convert_copy src (out ++ [iso_tolower c])

/-- Source lines 103-104: `while (p > dst+1 && p[-1] == '.') p--;`
on the written bytes `buf`, with `p` given as the index `p - dst`. -/
def convert_strip (buf : List Nat) : Nat → Nat
  | 0 => 0
  | p + 1 => if 1 < p + 1 ∧ buf[p]? = some 46 then convert_strip buf p else p + 1

/-- Source lines 106-108: `*p = '\0'; return p - dst;` on the written bytes
`buf`.  The result is the content of `dst` from index 0 (the terminator
overwrites the first stripped dot, the later stripped dots stay behind it)
and the returned length. -/
def convert_done (buf : List Nat) (p : Nat) : List Nat × Nat :=
  (buf.take p ++ 0 :: buf.drop (p + 1), p)

/-- Source lines 76-109: `iso_convert_name(dst, src, len)`.  The result is the
content of `dst` after the call together with the returned length; `none` is a
read past the end of `src`. -/
def iso_convert_name (src : List Nat) (len : Nat) : Option (List Nat × Nat) :=
  let general : Option (List Nat × Nat) :=
    match convert_copy src [] with
    | none => none
    | some buf => some (convert_done buf (convert_strip buf buf.length))
  if len = 1 then
    match src with
    | [] => none
    | c :: _ =>
      if c = 1 then some (convert_done [46, 46] 2)
      else if c = 0 then some (convert_done [46] 1)
      else general
  else general

/-- Source lines 126-135: the do-while loop of `iso_compare_name`; `p` walks
the converted name, `file_name` the candidate. -/
def compare_loop : List Nat → List Nat → Option Bool
  | [], _ => none
  | _ :: _, [] => none
  | c1 :: p, f :: file_name =>
    if c1 ≠ iso_tolower f then some false
    else if c1 ≠ 0 then compare_loop p file_name
    else some true

/-- Source line 117: the size of the local array `char iso_file_name[256]`
into which `iso_compare_name` converts the on-disk name. -/
def iso_file_name_size : Nat := 256

/-- Source lines 114-136: `iso_compare_name(de_name, len, file_name)`.  The
conversion writes into the local array `iso_file_name`, and its copy loop has
no bound.  The buffer `iso_convert_name` returns holds every byte of `dst` the
conversion wrote (the copied bytes and the terminator, `convert_done_length`),
so a buffer longer than the array is a write past the end of the array: the
result is then `none`, as it is for a read past the end of `de_name` or of
`file_name`. -/
def iso_compare_name (de_name : List Nat) (len : Nat) (file_name : List Nat) :
    Option Bool :=
  match iso_convert_name de_name len with
  | none => none
  | some r =>
    if r.1.length ≤ iso_file_name_size then compare_loop r.1 file_name else none

/-- The bytes of an ASCII string. -/
def bytes (s : String) : List Nat := s.toList.map Char.toNat


/-! ### Specification-side definitions for the name codec -/

/-- Remove leading dots from a reversed name while more than one character
remains. -/
def drop_dots_rev : List Nat → List Nat
  | [] => []
  | [c] => [c]
  | c :: b :: rest => if c = 46 then drop_dots_rev (b :: rest) else c :: b :: rest

/-- Trailing `.` characters removed while more than one character remains. -/
def strip_trailing_dots (l : List Nat) : List Nat :=
  (drop_dots_rev l.reverse).reverse

/-- The bytes of the name field (its first `len` bytes) that come before the
first `;` or the first zero byte. -/
def before_version (src : List Nat) (len : Nat) : List Nat :=
  (src.take len).takeWhile (fun c => c != 0 && c != 59)

/-- The string `iso_convert_name` is specified to produce. -/
def convert_name_spec (src : List Nat) (len : Nat) : List Nat :=
  if len = 1 ∧ src[0]? = some 0 then [46]
  else if len = 1 ∧ src[0]? = some 1 then [46, 46]
  else strip_trailing_dots ((before_version src len).map iso_tolower)

/-! ## Inodes, open files and the block-granular reader -/

/-- Source line 372: `fs->block_shift = 11`. -/
def BLOCK_SHIFT : Nat := 11

/-- Source line 374: `fs->block_size = 1 << fs->block_shift`. -/
def BLOCK_SIZE : Nat := 1 <<< BLOCK_SHIFT

/-- Modelled from the spec: the inode kinds `I_FILE` and `I_DIR` of the
generic filesystem header, which is not among the sources; the spec gives an
inode the kind `file | directory`. -/
inductive Mode where
  | I_FILE
  | I_DIR
  deriving DecidableEq, Repr

/-- The fields of `struct inode` the driver uses; `size` and `blocks` are
`uint32_t`, `pvt` is the `uint32_t` start block kept in the private area. -/
structure Inode where
  mode : Mode
  size : Nat
  blocks : Nat
  pvt : Nat
  deriving DecidableEq, Repr

/-- The fields of `struct file` the driver uses; `offset` is `uint32_t`. -/
structure File where
  inode : Inode
  offset : Nat
  deriving DecidableEq, Repr

/-- What one call of `iso_getfssec` produces: the returned byte count, the
flag stored through `have_more`, the file after the call, and the arguments
`block`, `blocks` of the one `cdrom_read_blocks` request it issues. -/
structure Getfssec where
  bytes_read : Nat
  have_more : Bool
  file : File
  read_block : Nat
  read_blocks : Nat
  deriving DecidableEq, Repr

/-- Source lines 147-172: `iso_getfssec(file, buf, blocks, have_more)` for a
non-negative `blocks`.  All arithmetic is `uint32_t` arithmetic. -/
def iso_getfssec (file : File) (blocks : Nat) : Getfssec :=
  let bytes_read := (blocks <<< BLOCK_SHIFT) % 2 ^ 32
  let bytes_left := (file.inode.size + 2 ^ 32 - file.offset) % 2 ^ 32
  let blocks_left := ((bytes_left + BLOCK_SIZE - 1) % 2 ^ 32) >>> BLOCK_SHIFT
  let block := (file.inode.pvt + (file.offset >>> BLOCK_SHIFT)) % 2 ^ 32
  let blocks := if blocks > blocks_left then blocks_left else blocks
  if bytes_read ≥ bytes_left then
    { bytes_read := bytes_left, have_more := false,
      file := { file with offset := (file.offset + bytes_left) % 2 ^ 32 },
      read_block := block, read_blocks := blocks }
  else
    { bytes_read := bytes_read, have_more := true,
      file := { file with offset := (file.offset + bytes_read) % 2 ^ 32 },
      read_block := block, read_blocks := blocks }

/-- A file of `size` bytes starting at block `pvt`, opened at offset 0. -/
def open_file (size pvt : Nat) : File :=
  { inode := { mode := Mode.I_FILE, size := size,
               blocks := ((size + BLOCK_SIZE - 1) % 2 ^ 32) >>> BLOCK_SHIFT, pvt := pvt },
    offset := 0 }

/-! ## Path mangling -/

/-- Modelled from the spec: the helper `not_whitespace` of the core header,
which is not among the sources; the copy stops on "whitespace or the string
end", taken here as every byte up to and including the blank (0x20). -/
def core_not_whitespace (c : Nat) : Bool := decide (32 < c)

/-- The state of `iso_mangle_name`.  The pointer `dst` into the destination
memory is kept as a split of that memory: `before` holds the bytes
`p[0 .. dst)` nearest first (so its head is `dst[-1]`), `after` the bytes from
`*dst` on; `i` is the counter. -/
structure MangleSt where
  before : List Nat
  after : List Nat
  i : Int
  deriving DecidableEq, Repr

/-- Source line 56-57: `*dst++ = c; i--;`.  A write outside the memory handed
in for `dst` is a fault. -/
def mangle_put (st : MangleSt) (c : Nat) : Option MangleSt :=
  match st.after with
  | [] => none
  | _ :: after => some { before := c :: st.before, after := after, i := st.i - 1 }

/-- Source lines 47-58: the copy loop of `iso_mangle_name`, with the helper
`not_whitespace` as a parameter. -/
def mangle_copy (not_whitespace : Nat → Bool) : List Nat → MangleSt → Option MangleSt
  | [], _ => none
  | c :: src, st =>
    if not_whitespace c then
      if c = 47 then
        match src with
        | [] => none
        | d :: _ =>
          if d = 47 then mangle_copy not_whitespace src { st with i := st.i - 1 }
          else
            match mangle_put st c with
            | none => none
            | some st1 => mangle_copy not_whitespace src st1
      else
        match mangle_put st c with
        | none => none
        | some st1 => mangle_copy not_whitespace src st1
    else some st

/-- Source lines 60-69: the loop that steps `dst` back over trailing `.` and
`/` (the bytes stay in memory) and counts `i` up. -/
def mangle_strip : List Nat → List Nat → Int → MangleSt
  | [], after, i => { before := [], after := after, i := i }
  | c :: before, after, i =>
    if c ≠ 46 ∧ c ≠ 47 then { before := c :: before, after := after, i := i }
    else mangle_strip before (c :: after) (i + 1)

/-- Source lines 72-73: `for (; i > 0; i--) *dst++ = 0`, for `count`
remaining iterations. -/
def mangle_fill : Nat → List Nat → List Nat → Option (List Nat × List Nat)
  | 0, before, after => some (before, after)
  | count + 1, before, after =>
    match after with
    | [] => none
    | _ :: after1 => mangle_fill count (0 :: before) after1

/-- Source lines 42-74: `iso_mangle_name(dst, src)`.  `FILENAME_MAX` and
`not_whitespace` come from headers that are not among the sources and are
parameters; `dst` is the memory writable from the destination pointer, `src`
the memory readable from the source pointer.  The result is the memory at
`dst` after the call; `none` is an access outside `dst` or `src`. -/
def iso_mangle_name (FILENAME_MAX : Nat) (not_whitespace : Nat → Bool)
    (dst src : List Nat) : Option (List Nat) :=
  match mangle_copy not_whitespace src
      { before := [], after := dst, i := (FILENAME_MAX : Int) - 1 } with
  | none => none
  | some st =>
    let st1 := mangle_strip st.before st.after st.i
    match mangle_fill (st1.i + 1).toNat st1.before st1.after with
    | none => none
    | some (before, after) => some (before.reverse ++ after)

/-- Every run of two or more consecutive `/` replaced by a single `/`. -/
def collapse_slashes : List Nat → List Nat
  | [] => []
  | [c] => [c]
  | c :: d :: rest =>
    if c = 47 ∧ d = 47 then collapse_slashes (d :: rest)
    else c :: collapse_slashes (d :: rest)

/-- All trailing `.` and `/` characters removed, stopping when the result is
empty. -/
def strip_dots_slashes (l : List Nat) : List Nat :=
  (l.reverse.dropWhile (fun c => c == 46 || c == 47)).reverse

/-- The name `iso_mangle_name` is specified to leave in `dst`: the bytes of
`src` before the first whitespace byte or the string end, with runs of `/`
collapsed and trailing `.` and `/` removed. -/
def mangled_name (not_whitespace : Nat → Bool) (src : List Nat) : List Nat :=
  strip_dots_slashes (collapse_slashes (src.takeWhile not_whitespace))

/-! ## Directory records, lookup and enumeration -/

/-- The outcome of a call that reads memory in a loop: `ok a` is a normal
return of `a`; `fault` is a read outside the memory of a buffer; `timeout`
says that the iteration bound of the embedding ran out. -/
inductive Res (α : Type) where
  | ok (a : α)
  | fault
  | timeout
  deriving DecidableEq, Repr

/-- One pass through the body of a `while (1)` loop: go round again with a new
state, leave the loop with a value, or fault. -/
inductive Step (σ ρ : Type) where
  | next (s : σ)
  | done (r : ρ)
  | fault
  deriving DecidableEq, Repr

/-- Modelled from the spec: the layout of the on-disk directory record
(`struct iso_dir_entry`, declared in a header that is not among the sources).
The spec lists the fields `length` (1 byte, first), `flags`, `size`, `extent`,
`name_len` and `name`, with 33 bytes in front of the name; the offsets are
those of ECMA-119 section 9.1: `extent` at 2, `size` at 10, `flags` at 25,
`name_len` at 32, `name` at 33. -/
def DE_EXTENT : Nat := 2

/-- Modelled from the spec: offset of the `size` field, see `DE_EXTENT`. -/
def DE_SIZE : Nat := 10

/-- Modelled from the spec: offset of the `flags` field, see `DE_EXTENT`. -/
def DE_FLAGS : Nat := 25

/-- Modelled from the spec: offset of the `name_len` field, see `DE_EXTENT`. -/
def DE_NAME_LEN : Nat := 32

/-- Modelled from the spec: offset of the `name` field, see `DE_EXTENT`. -/
def DE_NAME : Nat := 33

/-- The byte `buf[k]` of a buffer; `none` when `k` is outside the buffer. -/
def peek : List Nat → Nat → Option Nat
  | [], _ => none
  | b :: _, 0 => some b
  | _ :: rest, k + 1 => peek rest k

/-- A pointer into the block cache: `data + offset`, where `data` is the
memory `get_cache` returned for block number `block`.  The block cache itself
is a function `cache` from block numbers to the memory of the block. -/
structure DePtr where
  block : Nat
  offset : Nat
  deriving DecidableEq, Repr

/-- The byte at `de + k`. -/
def DePtr.byte (cache : Nat → List Nat) (de : DePtr) (k : Nat) : Option Nat :=
  peek (cache de.block) (de.offset + k)

/-- The memory readable from `de->name` on. -/
def DePtr.name (cache : Nat → List Nat) (de : DePtr) : List Nat :=
  (cache de.block).drop (de.offset + DE_NAME)

/-- The little-endian `uint32_t` read by `*(uint32_t *)(de + k)`. -/
def DePtr.le32 (cache : Nat → List Nat) (de : DePtr) (k : Nat) : Option Nat :=
  match de.byte cache k, de.byte cache (k + 1), de.byte cache (k + 2), de.byte cache (k + 3) with
  | some b0, some b1, some b2, some b3 => some (b0 + 256 * b1 + 65536 * b2 + 16777216 * b3)
  | _, _, _, _ => none

/-- The loop state of `iso_find_entry`: `i`, `dir_block`, `offset` and the
block pointer `data`, kept as the number of the block it points to (`none` is
`NULL`). -/
structure FindSt where
  i : Nat
  dir_block : Nat
  offset : Nat
  data : Option Nat
  deriving DecidableEq, Repr

/-- Source lines 199-220: the part of the loop body of `iso_find_entry` after
the block has been fetched; `st` is the state with `data` pointing to the
memory of block `blk`. -/
def find_entry (cache : Nat → List Nat) (dname : List Nat) (st : FindSt) (blk : Nat) :
    Step FindSt (Option DePtr) :=
  match peek (cache blk) st.offset with
  | none => Step.fault
  | some de_len =>
    let offset := st.offset + de_len
    if de_len < 33 ∨ offset > BLOCK_SIZE then
      Step.next { st with offset := offset, data := none }
    else
      match peek (cache blk) (st.offset + DE_NAME_LEN) with
      | none => Step.fault
      | some de_name_len =>
        match iso_compare_name ((cache blk).drop (st.offset + DE_NAME)) de_name_len dname with
        | none => Step.fault
        | some true => Step.done (some { block := blk, offset := st.offset })
        | some false => Step.next { st with offset := offset, data := some blk }

/-- Source lines 190-221: one pass through the loop body of `iso_find_entry`;
`cache` is the block cache (`get_cache`), a block number giving the memory of
that block. -/
def find_step (cache : Nat → List Nat) (dname : List Nat) (inode : Inode) (st : FindSt) :
    Step FindSt (Option DePtr) :=
  match st.data with
  | none =>
    if st.i + 1 > inode.blocks then Step.done none
    else
      find_entry cache dname
        { i := st.i + 1, dir_block := st.dir_block + 1, offset := 0,
          data := some st.dir_block }
        st.dir_block
  | some blk => find_entry cache dname st blk

/-- The `while (1)` loop of `iso_find_entry`, for at most `fuel` passes. -/
def find_loop (cache : Nat → List Nat) (dname : List Nat) (inode : Inode) :
    Nat → FindSt → Res (Option DePtr)
  | 0, _ => Res.timeout
  | fuel + 1, st =>
    match find_step cache dname inode st with
    | Step.next st1 => find_loop cache dname inode fuel st1
    | Step.done r => Res.ok r
    | Step.fault => Res.fault

/-- Source lines 177-222: `iso_find_entry(dname, inode)`.  Every pass through
the loop either returns, or gives up the block, or accepts a record of at
least 33 bytes inside the block, so `(BLOCK_SIZE + 1) * blocks + 1` passes
are enough (`iso_find_entry_no_timeout`). -/
def iso_find_entry (cache : Nat → List Nat) (dname : List Nat) (inode : Inode) :
    Res (Option DePtr) :=
  find_loop cache dname inode ((BLOCK_SIZE + 1) * inode.blocks + 1)
    { i := 0, dir_block := inode.pvt, offset := 0, data := none }

/-- Source lines 224-230: `get_inode_mode(flags)`. -/
def get_inode_mode (flags : Nat) : Mode :=
  if flags &&& 0x02 ≠ 0 then Mode.I_DIR else Mode.I_FILE

/-- Source lines 232-246: `iso_get_inode(fs, de)`; `alloc_ok` says whether
`alloc_inode` returns an inode.  `none` inside `ok` is `NULL`. -/
def iso_get_inode (cache : Nat → List Nat) (alloc_ok : Bool) (de : DePtr) :
    Res (Option Inode) :=
  if alloc_ok then
    match de.byte cache DE_FLAGS, de.le32 cache DE_SIZE, de.le32 cache DE_EXTENT with
    | some flags, some size, some extent =>
      Res.ok (some { mode := get_inode_mode flags, size := size, pvt := extent,
                     blocks := ((size + BLOCK_SIZE - 1) % 2 ^ 32) >>> BLOCK_SHIFT })
    | _, _, _ => Res.fault
  else Res.ok none

/-- Source lines 266-275: `iso_iget(dname, parent)`: the returned inode and the
parent inode after the call. -/
def iso_iget (cache : Nat → List Nat) (alloc_ok : Bool) (dname : List Nat) (parent : Inode) :
    Res (Option Inode) × Inode :=
  match iso_find_entry cache dname parent with
  | Res.ok none => (Res.ok none, parent)
  | Res.ok (some de) => (iso_get_inode cache alloc_ok de, parent)
  | Res.fault => (Res.fault, parent)
  | Res.timeout => (Res.timeout, parent)

/-- The fields of `struct dirent` that `iso_readdir` fills in; `d_name` is the
content of the name buffer after the conversion. -/
structure Dirent where
  d_ino : Nat
  d_off : Nat
  d_type : Mode
  d_reclen : Nat
  d_name : List Nat
  deriving DecidableEq, Repr

/-- The loop state of `iso_readdir`: `i`, `block`, `offset`, the block pointer
`data`, kept as the number of the block it points to (`none` is `NULL`), and
the field `file->offset`. -/
structure ReaddirSt where
  i : Nat
  block : Nat
  offset : Nat
  data : Option Nat
  file_offset : Nat
  deriving DecidableEq, Repr

/-- Source lines 302-303: `(file->offset + BLOCK_SIZE(fs) - 1) &
~(BLOCK_SIZE(fs) - 1)` in `uint32_t` arithmetic. -/
def round_up_block (file_offset : Nat) : Nat :=
  ((file_offset + BLOCK_SIZE - 1) % 2 ^ 32) &&& (2 ^ 32 - 1 - (BLOCK_SIZE - 1))

/-- Source lines 296-309: the part of the loop body of `iso_readdir` after the
block has been fetched.  Leaving the loop (`break`) gives the record pointer
`de`, `de_len`, `de_name_len` and the current `file->offset`. -/
def readdir_entry (cache : Nat → List Nat) (st : ReaddirSt) (blk : Nat) :
    Step ReaddirSt (Option (DePtr × Nat × Nat) × Nat) :=
  match peek (cache blk) st.offset with
  | none => Step.fault
  | some de_len =>
    let offset := st.offset + de_len
    if de_len < 33 ∨ offset > BLOCK_SIZE then
      Step.next { st with offset := offset, data := none,
                          file_offset := round_up_block st.file_offset }
    else
      match peek (cache blk) (st.offset + DE_NAME_LEN) with
      | none => Step.fault
      | some de_name_len =>
        Step.done (some ({ block := blk, offset := st.offset }, de_len, de_name_len),
                   st.file_offset)

/-- Source lines 290-310: one pass through the loop body of `iso_readdir`.
Unlike `find_step`, fetching a block leaves `offset` as it is. -/
def readdir_step (cache : Nat → List Nat) (inode : Inode) (st : ReaddirSt) :
    Step ReaddirSt (Option (DePtr × Nat × Nat) × Nat) :=
  match st.data with
  | none =>
    if st.i + 1 > inode.blocks then Step.done (none, st.file_offset)
    else
      readdir_entry cache
        { st with i := st.i + 1, block := st.block + 1, data := some st.block }
        st.block
  | some blk => readdir_entry cache st blk

/-- The `while (1)` loop of `iso_readdir`, for at most `fuel` passes. -/
def readdir_loop (cache : Nat → List Nat) (inode : Inode) :
    Nat → ReaddirSt → Res (Option (DePtr × Nat × Nat) × Nat)
  | 0, _ => Res.timeout
  | fuel + 1, st =>
    match readdir_step cache inode st with
    | Step.next st1 => readdir_loop cache inode fuel st1
    | Step.done r => Res.ok r
    | Step.fault => Res.fault

/-- Source lines 277-325: `iso_readdir(file)`: the returned entry (`none` is
`NULL`) and the file after the call; `malloc_ok` says whether `malloc` returns
memory.  Every pass through the loop that does not leave it gives up one
block, so `blocks + 1` passes are enough. -/
def iso_readdir (cache : Nat → List Nat) (malloc_ok : Bool) (file : File) :
    Res (Option Dirent × File) :=
  let offset := file.offset &&& (BLOCK_SIZE - 1)
  let i := file.offset >>> BLOCK_SHIFT
  let block := (file.inode.pvt + i) % 2 ^ 32
  match readdir_loop cache file.inode (file.inode.blocks + 1)
      { i := i, block := block, offset := offset, data := none,
        file_offset := file.offset } with
  | Res.timeout => Res.timeout
  | Res.fault => Res.fault
  | Res.ok (none, file_offset) => Res.ok (none, { file with offset := file_offset })
  | Res.ok (some (de, de_len, de_name_len), file_offset) =>
    if malloc_ok then
      match de.byte cache DE_FLAGS, iso_convert_name (de.name cache) de_name_len with
      | some flags, some (d_name, d_reclen) =>
        Res.ok (some { d_ino := 0, d_off := file_offset, d_type := get_inode_mode flags,
                       d_reclen := d_reclen, d_name := d_name },
                { file with offset := (file_offset + de_len) % 2 ^ 32 })
      | _, _ => Res.fault
    else Res.ok (none, { file with offset := file_offset })

/-! ### Specification-side definitions for directories -/

/-- The record chain of a block from offset `off`: starting at `off`, follow
the length bytes until a length below 33 or a record that would end past byte
`BLOCK_SIZE`.  The result is the list of record offsets and the offset at
which the chain stops.  `fuel` bounds the number of records; `BLOCK_SIZE`
is more than a block can hold. -/
def chain (data : List Nat) : Nat → Nat → List Nat × Nat
  | 0, off => ([], off)
  | fuel + 1, off =>
    match peek data off with
    | none => ([], off)
    | some len =>
      if len < 33 ∨ off + len > BLOCK_SIZE then ([], off)
      else ((off :: (chain data fuel (off + len)).1), (chain data fuel (off + len)).2)

/-- The records of block number `blk` in chain order from offset 0. -/
def block_records (cache : Nat → List Nat) (blk : Nat) : List DePtr :=
  (chain (cache blk) BLOCK_SIZE 0).1.map (fun off => { block := blk, offset := off })

/-- The offset at which the record chain of a block stops. -/
def chain_stop (data : List Nat) : Nat := (chain data BLOCK_SIZE 0).2

/-- The records of the directory extent of `n` blocks from block `s`: blocks
`s, s+1, ..., s+n-1` in order, each walked from offset 0. -/
def dir_records (cache : Nat → List Nat) (s n : Nat) : List DePtr :=
  (List.range n).flatMap (fun k => block_records cache (s + k))

/-- Whether the name of a record matches `dname` under `iso_compare_name`
(`none` when the record header or the name runs out of the block memory, or
the converted name out of the array `iso_file_name`). -/
def de_matches (cache : Nat → List Nat) (dname : List Nat) (de : DePtr) : Option Bool :=
  match de.byte cache DE_NAME_LEN with
  | none => none
  | some de_name_len => iso_compare_name (de.name cache) de_name_len dname

/-- A directory record of `len` bytes with the given flags, little-endian
extent and size, and name; the bytes not set are zero. -/
def mk_record (len flags extent size : Nat) (name : List Nat) : List Nat :=
  ([len, 0, extent % 256, extent / 256 % 256, extent / 65536 % 256, extent / 16777216 % 256,
    0, 0, 0, 0,
    size % 256, size / 256 % 256, size / 65536 % 256, size / 16777216 % 256,
    0, 0, 0, 0, 0, 0, 0, 0, 0, 0, 0, flags, 0, 0, 0, 0, 0, 0, name.length]
    ++ name ++ List.replicate (len - 33 - name.length) 0)

/-- A block holding the given records back to back from offset 0, followed by
zero bytes up to `BLOCK_SIZE`. -/
def mk_block (records : List (List Nat)) : List Nat :=
  records.flatten ++ List.replicate (BLOCK_SIZE - records.flatten.length) 0

/-- A directory inode of `blocks` blocks starting at block `pvt`. -/
def dir_inode (pvt blocks : Nat) : Inode :=
  { mode := Mode.I_DIR, size := blocks * BLOCK_SIZE, blocks := blocks, pvt := pvt }

/-- The first record of a list whose name matches `dname`: `ok (some de)` for
the first match, `ok none` when every comparison returns false, `fault` when
a comparison before any match runs out of the block memory or of the array
`iso_file_name`. -/
def first_match (cache : Nat → List Nat) (dname : List Nat) : List DePtr → Res (Option DePtr)
  | [] => Res.ok none
  | de :: rest =>
    match de_matches cache dname de with
    | none => Res.fault
    | some true => Res.ok (some de)
    | some false => first_match cache dname rest

/-- A directory of two blocks, 20 and 21: block 20 holds the 40-byte record of
the file `A.TXT;1`, block 21 the 40-byte record of the directory `SUBDIR`,
each followed by zero bytes. -/
def two_block_dir : Nat → List Nat := fun b =>
  if b = 20 then mk_block [mk_record 40 0 100 5000 (bytes "A.TXT;1")]
  else if b = 21 then mk_block [mk_record 40 2 200 2048 (bytes "SUBDIR")]
  else []

/-- A bound on the number of passes `iso_find_entry` still makes from a loop
state, for a directory of `n` blocks: a full block budget for every block not
yet fetched, and the bytes left in the current block. -/
def find_measure (n : Nat) (st : FindSt) : Nat :=
  (BLOCK_SIZE + 1) * (n - st.i)
    + (match st.data with
       | some _ => BLOCK_SIZE + 1 - st.offset
       | none => 0) + 1

/-- The records a lookup standing in loop state `st` has still to visit, in a
directory of `n` blocks from block `s`: the rest of the record chain of the
block it holds, then the records of the blocks not yet fetched. -/
def find_remaining (cache : Nat → List Nat) (s n : Nat) (st : FindSt) : List DePtr :=
  (match st.data with
   | some blk =>
     (chain (cache blk) BLOCK_SIZE st.offset).1.map (fun off => { block := blk, offset := off })
   | none => [])
  ++ ((List.range n).drop st.i).flatMap (fun k => block_records cache (s + k))

/-- The loop invariant of `iso_find_entry` in a directory of `n` blocks from
block `s` whose record chains stop below `BLOCK_SIZE`. -/
def find_inv (cache : Nat → List Nat) (s n : Nat) (st : FindSt) : Prop :=
  st.i ≤ n ∧ st.dir_block = s + st.i ∧
    ∀ blk, st.data = some blk →
      blk + 1 = st.dir_block ∧ 1 ≤ st.i ∧
        (chain (cache blk) BLOCK_SIZE st.offset).2 < BLOCK_SIZE

/-- The number of `/` bytes `iso_mangle_name` skips in `src`. -/
def skipped_slashes (not_whitespace : Nat → Bool) (src : List Nat) : Nat :=
  (src.takeWhile not_whitespace).length
    - (collapse_slashes (src.takeWhile not_whitespace)).length

/-- A one-block directory (block 20) whose first record, the directory `DOC`,
has a name of odd length without version suffix: the record is 36 bytes long
and the 40-byte record of the file `A.TXT;1` follows it directly. -/
def odd_name_dir : Nat → List Nat := fun b =>
  if b = 20 then
    mk_block [mk_record 36 2 200 2048 (bytes "DOC"), mk_record 40 0 100 5000 (bytes "A.TXT;1")]
  else []

/-- Source lines 249-264: `iso_iget_root(fs)`; `root` is the memory of the
root directory record kept in the volume state (`ISO_SB(fs)->root`),
`alloc_ok` says whether `alloc_inode` returns an inode. -/
def iso_iget_root (root : List Nat) (alloc_ok : Bool) : Res (Option Inode) :=
  if alloc_ok then
    match DePtr.le32 (fun _ => root) { block := 0, offset := 0 } DE_SIZE,
          DePtr.le32 (fun _ => root) { block := 0, offset := 0 } DE_EXTENT with
    | some size, some extent =>
      Res.ok (some { mode := Mode.I_DIR, size := size, pvt := extent,
                     blocks := ((size + BLOCK_SIZE - 1) % 2 ^ 32) >>> BLOCK_SHIFT })
    | _, _ => Res.fault
  else Res.ok none

/-! ## Configuration file discovery -/

/-- Source lines 330-335: the array `search_directories`, without its closing
`NULL`. -/
def search_directories : List (List Nat) :=
  [bytes "/boot/isolinux", bytes "/isolinux", bytes "/"]

/-- Source lines 341-342: the string `snprintf(ConfigName, FILENAME_MAX,
"%s/isolinux.cfg", dir)` leaves in `ConfigName`: the formatted text, cut to
`FILENAME_MAX - 1` bytes.  `FILENAME_MAX` is declared in a header that is not
among the sources and is a parameter. -/
def config_name (FILENAME_MAX : Nat) (dir : List Nat) : List Nat :=
  (dir ++ bytes "/isolinux.cfg").take (FILENAME_MAX - 1)

/-- What a call of `iso_load_config` does: the value it returns, the argument
of its `chdir` call (`none` when it makes no such call), and the paths it
hands to `core_open`, in order. -/
structure LoadConfig where
  ret : Int
  chdir : Option (List Nat)
  probes : List (List Nat)
  deriving DecidableEq, Repr

/-- Source lines 339-347: the `for` loop of `iso_load_config` over the
directories still to try; `open_ok path` says whether `core_open` finds the
file `path` (it returns with the zero flag clear).  The result is the
directory at which the loop breaks (`none` when it runs to the closing
`NULL`) and the paths probed. -/
def load_config_loop (FILENAME_MAX : Nat) (open_ok : List Nat → Bool) :
    List (List Nat) → List (List Nat) → Option (List Nat) × List (List Nat)
  | [], probes => (none, probes)
  | dir :: rest, probes =>
    if open_ok (config_name FILENAME_MAX dir) then
      (some dir, probes ++ [config_name FILENAME_MAX dir])
    else
      load_config_loop FILENAME_MAX open_ok rest (probes ++ [config_name FILENAME_MAX dir])

/-- Source lines 327-354: `iso_load_config()`. -/
def iso_load_config (FILENAME_MAX : Nat) (open_ok : List Nat → Bool) : LoadConfig :=
  match load_config_loop FILENAME_MAX open_ok search_directories [] with
  | (none, probes) => { ret := -1, chdir := none, probes := probes }
  | (some dir, probes) => { ret := 0, chdir := some dir, probes := probes }

/-- The loop state in which `iso_readdir` enters its loop for `file`
(source lines 284-286). -/
def readdir_init (file : File) : ReaddirSt :=
  { i := file.offset >>> BLOCK_SHIFT,
    block := (file.inode.pvt + (file.offset >>> BLOCK_SHIFT)) % 2 ^ 32,
    offset := file.offset &&& (BLOCK_SIZE - 1), data := none,
    file_offset := file.offset }

/-- A directory of two blocks, 20 and 21: block 20 holds the 40-byte record of
the file `A.TXT;1`, block 21 the 40-byte record of the directory `SUBDIR` and
the 50-byte record of the file `B.TXT;1`, each block filled up with zero
bytes. -/
def three_record_dir : Nat → List Nat := fun b =>
  if b = 20 then mk_block [mk_record 40 0 100 5000 (bytes "A.TXT;1")]
  else if b = 21 then
    mk_block [mk_record 40 2 200 2048 (bytes "SUBDIR"), mk_record 50 0 300 10 (bytes "B.TXT;1")]
  else []

/-- A caller that enumerates a directory by `count` successive calls of
`iso_readdir`, each call resuming from the file the previous call left: the
value each call returns, in order.  The caller stops at a call that faults. -/
def readdir_calls (cache : Nat → List Nat) (malloc_ok : Bool) :
    Nat → File → List (Res (Option Dirent))
  | 0, _ => []
  | count + 1, file =>
    match iso_readdir cache malloc_ok file with
    | Res.ok (d, file1) => Res.ok d :: readdir_calls cache malloc_ok count file1
    | Res.fault => [Res.fault]
    | Res.timeout => [Res.timeout]

/-- The directory entry specified for a record `r` that lies at directory
offset `off` and is followed in the block memory by the bytes `rest`: offset
`off`, kind from the flag byte, name and length as `iso_convert_name` converts
the memory from the name field on (`none` when the conversion reads past the
end of that memory, or the record is shorter than its fixed part). -/
def record_entry (r rest : List Nat) (off : Nat) : Option Dirent :=
  match peek r DE_FLAGS, peek r DE_NAME_LEN with
  | some flags, some nl =>
    match iso_convert_name (r.drop DE_NAME ++ rest) nl with
    | some (d_name, d_reclen) =>
      some { d_ino := 0, d_off := off, d_type := get_inode_mode flags, d_reclen := d_reclen,
             d_name := d_name }
    | none => none
  | _, _ => none

/-- The values specified for the successive enumeration calls of a block that
holds the records `records` back to back from offset `off` on, followed by the
bytes `pad`: the entry of each record in order, then `NULL`; a record without
entry ends the list with a fault. -/
def expected_entries : Nat → List (List Nat) → List Nat → List (Res (Option Dirent))
  | _, [], _ => [Res.ok none]
  | off, r :: post, pad =>
    match record_entry r (post.flatten ++ pad) off with
    | some d => Res.ok (some d) :: expected_entries (off + r.length) post pad
    | none => [Res.fault]

/-- The records of the directory block `packed_dir`: ten records that fill the
2048 bytes of the block exactly; the last one is the 36-byte record of the
directory `DOC`, whose three name bytes are the last bytes of the block. -/
def packed_records : List (List Nat) :=
  List.replicate 7 (mk_record 250 0 100 5000 (bytes "A.TXT;1"))
    ++ [mk_record 131 0 101 10 (bytes "B.TXT;1"), mk_record 131 0 102 10 (bytes "C.TXT;1"),
        mk_record 36 2 200 2048 (bytes "DOC")]

/-- A one-block directory (block 20) filled exactly by `packed_records`. -/
def packed_dir : Nat → List Nat := fun b =>
  if b = 20 then mk_block packed_records else []

/-- The records of the directory block `full_block_dir`: 32 records of 64
bytes, each the record of a file `A.TXT;1`; together they fill the 2048 bytes
of a block exactly. -/
def full_records : List (List Nat) :=
  List.replicate 32 (mk_record 64 0 100 5000 (bytes "A.TXT;1"))

/-- A one-block directory (block 20) filled exactly by `full_records`. -/
def full_block_dir : Nat → List Nat := fun b =>
  if b = 20 then mk_block full_records else []

/-- The records of the directory block `tail_dir`: eight 250-byte records of a
file `A.TXT;1` and, at offset 2000, the 40-byte record of the directory
`SUBDIRS`, whose seven name bytes are the last bytes of the record. -/
def tail_records : List (List Nat) :=
  List.replicate 8 (mk_record 250 0 100 5000 (bytes "A.TXT;1"))
    ++ [mk_record 40 2 200 2048 (bytes "SUBDIRS")]

/-- A one-block directory (block 20) of 2048 bytes: the records `tail_records`
and then eight bytes of value 1, none of which is a record length of at least
33, so that the record chain stops at offset 2040. -/
def tail_dir : Nat → List Nat := fun b =>
  if b = 20 then tail_records.flatten ++ List.replicate 8 1 else []

/-! # Properties -/

/-! ### Lemmas on the name codec -/

theorem iso_tolower_eq_zero (c : Nat) : iso_tolower c = 0 ↔ c = 0 := by
  unfold iso_tolower
  split <;> omega

theorem cstr_nil : cstr [] = [] := rfl

theorem cstr_cons_zero (t : List Nat) : cstr (0 :: t) = [] := by
  simp [cstr]

theorem cstr_cons_ne (a : Nat) (t : List Nat) (ha : a ≠ 0) : cstr (a :: t) = a :: cstr t := by
  simp [cstr, List.takeWhile_cons, ha]

theorem cstr_append_zero (name rest : List Nat) (h : ∀ c ∈ name, c ≠ 0) :
    cstr (name ++ 0 :: rest) = name := by
  induction name with
  | nil => simp [cstr]
  | cons a t ih =>
    have ha : a ≠ 0 := h a (by simp)
    have ht : ∀ c ∈ t, c ≠ 0 := fun c hc => h c (by simp [hc])
    rw [List.cons_append, cstr_cons_ne _ _ ha, ih ht]

theorem convert_copy_zero_free (src : List Nat) :
    ∀ out buf, (∀ c ∈ out, c ≠ 0) → convert_copy src out = some buf → ∀ c ∈ buf, c ≠ 0 := by
  induction src with
  | nil => intro out buf _ h; simp [convert_copy] at h
  | cons a t ih =>
    intro out buf hout h
    unfold convert_copy at h
    split at h
    · cases h; exact hout
    · split at h
      · cases h; exact hout
      · rename_i h0 _
        refine ih _ buf ?_ h
        intro c hc
        rcases List.mem_append.1 hc with hc | hc
        · exact hout c hc
        · simp only [List.mem_singleton] at hc
          subst hc
          exact fun hz => h0 ((iso_tolower_eq_zero a).1 hz)

theorem convert_strip_le (buf : List Nat) : ∀ p, convert_strip buf p ≤ p := by
  intro p
  induction p with
  | zero => simp [convert_strip]
  | succ p ih =>
    unfold convert_strip
    split
    · omega
    · exact Nat.le_refl _

/-- Every successful conversion leaves `name ++ 0 :: rest` in `dst`, where
`name` has no zero byte, and returns the length of `name`. -/
theorem iso_convert_name_shape (src : List Nat) (len : Nat) (r : List Nat × Nat)
    (h : iso_convert_name src len = some r) :
    ∃ name rest, r = (name ++ 0 :: rest, name.length) ∧ ∀ c ∈ name, c ≠ 0 := by
  have gen : ∀ r : List Nat × Nat,
      (match convert_copy src [] with
        | none => none
        | some buf => some (convert_done buf (convert_strip buf buf.length))) = some r →
      ∃ name rest, r = (name ++ 0 :: rest, name.length) ∧ ∀ c ∈ name, c ≠ 0 := by
    intro r hr
    cases hc : convert_copy src [] with
    | none => simp [hc] at hr
    | some buf =>
      simp only [hc, Option.some.injEq] at hr
      have hz := convert_copy_zero_free src [] buf (by simp) hc
      have hle := convert_strip_le buf buf.length
      refine ⟨buf.take (convert_strip buf buf.length), buf.drop (convert_strip buf buf.length + 1), ?_, ?_⟩
      · rw [← hr]
        simp [convert_done, List.length_take, Nat.min_eq_left hle]
      · intro c hc2
        exact hz c (List.mem_of_mem_take hc2)
  unfold iso_convert_name at h
  simp only at h
  split at h
  · split at h
    · simp at h
    · split at h
      · refine ⟨[46, 46], [], ?_, by simp⟩
        simp only [Option.some.injEq] at h
        rw [← h]; simp [convert_done]
      · split at h
        · refine ⟨[46], [], ?_, by simp⟩
          simp only [Option.some.injEq] at h
          rw [← h]; simp [convert_done]
        · exact gen r h
  · exact gen r h

theorem compare_loop_spec (name : List Nat) :
    ∀ (rest file_name : List Nat), (∀ c ∈ name, c ≠ 0) → 0 ∈ file_name →
      compare_loop (name ++ 0 :: rest) file_name
        = some (decide (name = (cstr file_name).map iso_tolower)) := by
  induction name with
  | nil =>
    intro rest file_name _ hz
    cases file_name with
    | nil => simp at hz
    | cons f fn =>
      by_cases hf : f = 0
      · subst hf
        simp [compare_loop, cstr, iso_tolower]
      · have : iso_tolower f ≠ 0 := fun h => hf ((iso_tolower_eq_zero f).1 h)
        simp [compare_loop, cstr_cons_ne _ _ hf, Ne.symm this]
  | cons a t ih =>
    intro rest file_name hname hz
    have ha : a ≠ 0 := hname a (by simp)
    have ht : ∀ c ∈ t, c ≠ 0 := fun c hc => hname c (by simp [hc])
    cases file_name with
    | nil => simp at hz
    | cons f fn =>
      by_cases hf : f = 0
      · subst hf
        simp [compare_loop, cstr, iso_tolower, ha]
      · have hz2 : 0 ∈ fn := by
          rcases List.mem_cons.1 hz with h | h
          · exact absurd h.symm hf
          · exact h
        have hf2 : iso_tolower f ≠ 0 := fun h => hf ((iso_tolower_eq_zero f).1 h)
        by_cases hc : a = iso_tolower f
        · have := ih rest fn ht hz2
          simp [compare_loop, cstr_cons_ne _ _ hf, hc, this, hf2]
        · simp [compare_loop, cstr_cons_ne _ _ hf, hc]

theorem convert_copy_eq (src : List Nat) :
    ∀ out : List Nat, (∃ k : Nat, src[k]? = some 0 ∨ src[k]? = some 59) →
      convert_copy src out
        = some (out ++ (src.takeWhile (fun c => c != 0 && c != 59)).map iso_tolower) := by
  induction src with
  | nil => intro out h; obtain ⟨k, hk⟩ := h; simp at hk
  | cons a t ih =>
    intro out h
    unfold convert_copy
    by_cases h0 : a = 0
    · simp [h0]
    · by_cases h1 : a = 59
      · simp [h1]
      · have ht : ∃ k : Nat, t[k]? = some 0 ∨ t[k]? = some 59 := by
          obtain ⟨k, hk⟩ := h
          cases k with
          | zero =>
            simp only [List.getElem?_cons_zero, Option.some.injEq] at hk
            omega
          | succ k => exact ⟨k, by simpa using hk⟩
        rw [if_neg h0, if_neg h1, ih _ ht]
        simp [List.takeWhile_cons, h0, h1]

theorem takeWhile_take_of_stop (src : List Nat) :
    ∀ len, (∃ k, k ≤ len ∧ (src[k]? = some 0 ∨ src[k]? = some 59)) →
      (src.take len).takeWhile (fun c => c != 0 && c != 59)
        = src.takeWhile (fun c => c != 0 && c != 59) := by
  induction src with
  | nil => intro len _; simp
  | cons a t ih =>
    intro len h
    obtain ⟨k, hk, hstop⟩ := h
    by_cases h0 : a = 0
    · cases len <;> simp [h0, List.takeWhile_cons]
    · by_cases h1 : a = 59
      · cases len <;> simp [h1, List.takeWhile_cons]
      · cases k with
        | zero =>
          simp only [List.getElem?_cons_zero, Option.some.injEq] at hstop
          omega
        | succ k =>
          cases len with
          | zero => omega
          | succ len =>
            have := ih len ⟨k, by omega, by simpa using hstop⟩
            simp [List.takeWhile_cons, h0, h1, this]

theorem convert_strip_spec (buf : List Nat) :
    ∀ p, p ≤ buf.length →
      buf.take (convert_strip buf p) = (drop_dots_rev (buf.take p).reverse).reverse := by
  intro p
  induction p with
  | zero => intro _; simp [convert_strip, drop_dots_rev]
  | succ p ih =>
    intro hp
    have hlt : p < buf.length := by omega
    have htake : buf.take (p + 1) = buf.take p ++ [buf[p]] := by
      rw [List.take_succ]; simp [List.getElem?_eq_getElem hlt]
    unfold convert_strip
    cases p with
    | zero =>
      simp only [Nat.lt_irrefl, false_and, if_false]
      rw [htake]
      simp [drop_dots_rev]
    | succ q =>
      have hq : q < buf.length := by omega
      have htq : buf.take (q + 1) = buf.take q ++ [buf[q]] := by
        rw [List.take_succ]; simp [List.getElem?_eq_getElem hq]
      by_cases hd : buf[q + 1]? = some 46
      · have hv : buf[q + 1] = 46 := by
          rw [List.getElem?_eq_getElem hlt] at hd
          exact Option.some.inj hd
        rw [if_pos ⟨by omega, hd⟩, ih (by omega), htake, htq, hv]
        simp only [List.reverse_append, List.reverse_cons, List.reverse_nil, List.nil_append,
          List.singleton_append]
        rw [drop_dots_rev.eq_3]
        simp
      · have hv : buf[q + 1] ≠ 46 := by
          intro h
          apply hd
          rw [List.getElem?_eq_getElem hlt, h]
        rw [if_neg (fun h => hd h.2), htake, htq]
        simp only [List.reverse_append, List.reverse_cons, List.reverse_nil, List.nil_append,
          List.singleton_append]
        rw [drop_dots_rev.eq_3, if_neg hv]
        simp

theorem map_tolower_zero_free (l : List Nat) (h : ∀ c ∈ l, c ≠ 0) :
    ∀ c ∈ l.map iso_tolower, c ≠ 0 := by
  intro c hc
  obtain ⟨d, hd, rfl⟩ := List.mem_map.1 hc
  exact fun hz => h d hd ((iso_tolower_eq_zero d).1 hz)

theorem iso_convert_name_general (src : List Nat) (len : Nat)
    (hstop : ∃ k : Nat, k ≤ len ∧ (src[k]? = some 0 ∨ src[k]? = some 59)) :
    ∃ buf n,
      (match convert_copy src [] with
        | none => none
        | some buf => some (convert_done buf (convert_strip buf buf.length))) = some (buf, n) ∧
      cstr buf = strip_trailing_dots ((before_version src len).map iso_tolower) ∧
      n = (strip_trailing_dots ((before_version src len).map iso_tolower)).length := by
  have hstop2 : ∃ k : Nat, src[k]? = some 0 ∨ src[k]? = some 59 := by
    obtain ⟨k, _, hk⟩ := hstop
    exact ⟨k, hk⟩
  have hcopy := convert_copy_eq src [] hstop2
  rw [List.nil_append, ← takeWhile_take_of_stop src len hstop] at hcopy
  have hzf := convert_copy_zero_free src [] _ (by simp) hcopy
  rw [hcopy]
  have hb : before_version src len = (src.take len).takeWhile (fun c => c != 0 && c != 59) := rfl
  rw [← hb] at hzf ⊢
  generalize (before_version src len).map iso_tolower = buf at hzf ⊢
  have hle := convert_strip_le buf buf.length
  have hspec := convert_strip_spec buf buf.length (Nat.le_refl _)
  rw [List.take_length] at hspec
  refine ⟨_, _, rfl, ?_, ?_⟩
  · rw [cstr_append_zero _ _ (fun c hc => hzf c (List.mem_of_mem_take hc)), hspec]
    rfl
  · have : (buf.take (convert_strip buf buf.length)).length = convert_strip buf buf.length := by
      simp [List.length_take, Nat.min_eq_left hle]
    rw [strip_trailing_dots, ← hspec, this]

/-! ## Name codec: main results -/

/-- The bytes of `dst` that `iso_convert_name` has written when it returns:
the `buf.length` copied bytes and the terminator at index `p`. -/
theorem convert_done_length (buf : List Nat) (p : Nat) (h : p ≤ buf.length) :
    (convert_done buf p).1.length = max buf.length (p + 1) := by
  simp only [convert_done, List.length_append, List.length_take, List.length_cons,
    List.length_drop]
  omega

/-- Where the conversion fits into the array `iso_file_name`: for a
NUL-terminated candidate, `iso_compare_name` returns true exactly when the
conversion writes at most `iso_file_name_size` bytes and the string it leaves
equals, in length and in every character, the candidate folded to lower case;
whenever the conversion succeeds inside the array the early-exit loop returns
the same boolean as the comparison of the two complete strings; and a
conversion that writes more bytes than the array holds makes the call fault. -/
theorem iso_compare_name_of_fits (de_name : List Nat) (len : Nat)
    (file_name : List Nat) (hnul : 0 ∈ file_name) :
    (iso_compare_name de_name len file_name = some true ↔
      ∃ r, iso_convert_name de_name len = some r ∧ r.1.length ≤ iso_file_name_size ∧
        r.2 = ((cstr file_name).map iso_tolower).length ∧
        cstr r.1 = (cstr file_name).map iso_tolower) ∧
    (∀ r, iso_convert_name de_name len = some r → r.1.length ≤ iso_file_name_size →
      iso_compare_name de_name len file_name
        = some (decide (cstr r.1 = (cstr file_name).map iso_tolower))) ∧
    (∀ r, iso_convert_name de_name len = some r → iso_file_name_size < r.1.length →
      iso_compare_name de_name len file_name = none) := by
  have key : ∀ r, iso_convert_name de_name len = some r →
      r.1.length ≤ iso_file_name_size →
      r.2 = (cstr r.1).length ∧
      iso_compare_name de_name len file_name
        = some (decide (cstr r.1 = (cstr file_name).map iso_tolower)) := by
    intro r hr hfit
    obtain ⟨name, rest, rfl, hzf⟩ := iso_convert_name_shape de_name len r hr
    unfold iso_compare_name
    rw [hr]
    simp only
    rw [if_pos hfit, cstr_append_zero name rest hzf,
      compare_loop_spec name rest file_name hzf hnul]
    exact ⟨rfl, rfl⟩
  have over : ∀ r, iso_convert_name de_name len = some r →
      iso_file_name_size < r.1.length → iso_compare_name de_name len file_name = none := by
    intro r hr hover
    unfold iso_compare_name
    rw [hr]
    simp only
    rw [if_neg (by omega)]
  refine ⟨⟨?_, ?_⟩, fun r hr hfit => (key r hr hfit).2, over⟩
  · intro h
    cases hc : iso_convert_name de_name len with
    | none => simp [iso_compare_name, hc] at h
    | some r =>
      by_cases hfit : r.1.length ≤ iso_file_name_size
      · obtain ⟨hlen, hcmp⟩ := key r hc hfit
        rw [hcmp] at h
        have heq : cstr r.1 = (cstr file_name).map iso_tolower := by simpa using h
        exact ⟨r, rfl, hfit, by rw [hlen, heq], heq⟩
      · rw [over r hc (by omega)] at h
        cases h
  · rintro ⟨r, hr, hfit, _, heq⟩
    rw [(key r hr hfit).2]
    simp [heq]

/-- C4: when the name buffer holds a zero byte or a `;` at or before index
`len`, `iso_convert_name` succeeds and leaves in `dst` the string
`convert_name_spec src len` (`.` for the single byte 0, `..` for the single
byte 1, otherwise the bytes before the first `;` or the end of the name,
folded to lower case, with trailing dots removed while more than one character
remains), and returns the length of that string. -/
theorem iso_convert_name_spec (src : List Nat) (len : Nat)
    (hstop : ∃ k : Nat, k ≤ len ∧ (src[k]? = some 0 ∨ src[k]? = some 59)) :
    ∃ buf n, iso_convert_name src len = some (buf, n) ∧
      cstr buf = convert_name_spec src len ∧
      n = (convert_name_spec src len).length := by
  have hgen := iso_convert_name_general src len hstop
  unfold iso_convert_name convert_name_spec
  simp only
  by_cases hlen : len = 1
  · rw [if_pos hlen]
    cases src with
    | nil =>
      obtain ⟨k, _, hk⟩ := hstop
      simp at hk
    | cons c t =>
      simp only [List.getElem?_cons_zero, Option.some.injEq, hlen, true_and]
      by_cases h1 : c = 1
      · have h0 : c ≠ 0 := by omega
        rw [if_pos h1, if_neg h0, if_pos h1]
        exact ⟨_, _, rfl, by simp [convert_done, cstr], rfl⟩
      · by_cases h0 : c = 0
        · rw [if_neg h1, if_pos h0, if_pos h0]
          exact ⟨_, _, rfl, by simp [convert_done, cstr], rfl⟩
        · rw [if_neg h1, if_neg h0, if_neg h0, if_neg h1]
          rw [hlen] at hgen
          exact hgen
  · rw [if_neg hlen, if_neg (fun h => hlen h.1), if_neg (fun h => hlen h.1)]
    exact hgen

/-- Witness for C4: `FOO.TXT;1` with `len = 9` gives `foo.txt`, length 7. -/
theorem iso_convert_name_spec_witness :
    (∃ k : Nat, k ≤ 9 ∧ ((bytes "FOO.TXT;1")[k]? = some 0 ∨ (bytes "FOO.TXT;1")[k]? = some 59)) ∧
    ∃ buf n, iso_convert_name (bytes "FOO.TXT;1") 9 = some (buf, n) ∧
      cstr buf = bytes "foo.txt" ∧ n = 7 := by
  have hstop : ∃ k : Nat, k ≤ 9 ∧
      ((bytes "FOO.TXT;1")[k]? = some 0 ∨ (bytes "FOO.TXT;1")[k]? = some 59) :=
    ⟨7, by decide, Or.inr (by decide)⟩
  have hval : convert_name_spec (bytes "FOO.TXT;1") 9 = bytes "foo.txt" := by decide
  have hlen : (bytes "foo.txt").length = 7 := by decide
  have h := iso_convert_name_spec (bytes "FOO.TXT;1") 9 hstop
  rw [hval, hlen] at h
  exact ⟨hstop, h⟩

/-! ## Block-granular reader -/

theorem block_size_eq : BLOCK_SIZE = 2048 := by decide

theorem shift_block (n : Nat) : n <<< BLOCK_SHIFT = n * 2048 := by
  simp [BLOCK_SHIFT, Nat.shiftLeft_eq]

theorem iso_getfssec_eq (file : File) (n : Nat)
    (hsize : file.inode.size < 2 ^ 32) (hoff : file.offset ≤ file.inode.size)
    (hn : n * 2048 < 2 ^ 32) :
    (iso_getfssec file n).bytes_read = min (n * 2048) (file.inode.size - file.offset) ∧
    (iso_getfssec file n).have_more = decide (n * 2048 < file.inode.size - file.offset) ∧
    (iso_getfssec file n).file
      = { file with offset := file.offset + min (n * 2048) (file.inode.size - file.offset) } := by
  have hl : (file.inode.size + 2 ^ 32 - file.offset) % 2 ^ 32
      = file.inode.size - file.offset := by omega
  have hr : (n <<< BLOCK_SHIFT) % 2 ^ 32 = n * 2048 := by
    rw [shift_block]; exact Nat.mod_eq_of_lt hn
  unfold iso_getfssec
  simp only [hl, hr]
  by_cases h : n * 2048 ≥ file.inode.size - file.offset
  · rw [if_pos h]
    have hm : min (n * 2048) (file.inode.size - file.offset) = file.inode.size - file.offset :=
      Nat.min_eq_right h
    have ho : (file.offset + (file.inode.size - file.offset)) % 2 ^ 32
        = file.offset + (file.inode.size - file.offset) := by omega
    simp only [hm, ho, true_and, and_true]
    simp; omega
  · rw [if_neg h]
    have hm : min (n * 2048) (file.inode.size - file.offset) = n * 2048 :=
      Nat.min_eq_left (by omega)
    have ho : (file.offset + n * 2048) % 2 ^ 32 = file.offset + n * 2048 := by omega
    simp only [hm, ho, true_and, and_true]
    simp; omega

/-- C5: with `offset <= size` and `n * 2048 < 2^32`, `iso_getfssec` returns
`min (n * 2048) (size - offset)`, advances the file offset by exactly the
returned byte count, leaves the inode (size, start block) unchanged, and the
offset stays at most the size. -/
theorem iso_getfssec_bytes_delivered (file : File) (n : Nat)
    (hsize : file.inode.size < 2 ^ 32) (hoff : file.offset ≤ file.inode.size)
    (hn : n * 2048 < 2 ^ 32) :
    (iso_getfssec file n).bytes_read = min (n * 2048) (file.inode.size - file.offset) ∧
    (iso_getfssec file n).file.offset = file.offset + (iso_getfssec file n).bytes_read ∧
    (iso_getfssec file n).file.inode = file.inode ∧
    (iso_getfssec file n).file.offset ≤ (iso_getfssec file n).file.inode.size := by
  obtain ⟨hb, _, hf⟩ := iso_getfssec_eq file n hsize hoff hn
  rw [hf, hb]
  refine ⟨rfl, rfl, rfl, ?_⟩
  show file.offset + min (n * 2048) (file.inode.size - file.offset) ≤ file.inode.size
  omega

/-- Witness for C5: size 5000, offset 0, ten blocks requested: 5000 bytes. -/
theorem iso_getfssec_bytes_delivered_witness :
    (iso_getfssec (open_file 5000 0) 10).bytes_read = 5000 ∧
    (iso_getfssec (open_file 5000 0) 10).file.offset = 5000 := by
  have h := iso_getfssec_bytes_delivered (open_file 5000 0) 10 (by decide) (by decide)
    (by decide)
  have h1 : (iso_getfssec (open_file 5000 0) 10).bytes_read = 5000 := by
    rw [h.1]; decide
  refine ⟨h1, ?_⟩
  rw [h.2.1, h1]; decide

/-- C9, the claim as stated fails: a file of 2048 bytes read from offset 0 with
one block requested has `n * 2048 <= size - offset`, yet `have_more` is
cleared. -/
theorem iso_getfssec_have_more_counterexample :
    ¬ ((iso_getfssec (open_file 2048 0) 1).have_more = false ↔
        1 * 2048 > (open_file 2048 0).inode.size - (open_file 2048 0).offset) := by
  decide

/-- C9 as amended: with `offset <= size` and `n * 2048 < 2^32`,
`iso_getfssec` clears `have_more` exactly when `n * 2048 >= size - offset`
(the request reaches or passes the end of the file) and sets it exactly when
`n * 2048 < size - offset`. -/
theorem iso_getfssec_have_more (file : File) (n : Nat)
    (hsize : file.inode.size < 2 ^ 32) (hoff : file.offset ≤ file.inode.size)
    (hn : n * 2048 < 2 ^ 32) :
    ((iso_getfssec file n).have_more = false ↔ n * 2048 ≥ file.inode.size - file.offset) ∧
    ((iso_getfssec file n).have_more = true ↔ n * 2048 < file.inode.size - file.offset) := by
  obtain ⟨_, hm, _⟩ := iso_getfssec_eq file n hsize hoff hn
  rw [hm]
  constructor
  · simp
  · simp

/-- Witness for the amended C9 at a 2048-byte file read in one block. -/
theorem iso_getfssec_have_more_witness :
    ((iso_getfssec (open_file 2048 0) 1).have_more = false ↔
      1 * 2048 ≥ (open_file 2048 0).inode.size - (open_file 2048 0).offset) :=
  (iso_getfssec_have_more (open_file 2048 0) 1 (by decide) (by decide) (by decide)).1

set_option maxRecDepth 100000

/-- C6 at a failing input, `FILENAME_MAX = 256`: the source is `//` followed
by 254 letters `a`, the destination buffer held 256 bytes `0xFF`.  The copied
part is 255 bytes and fits, the specified name is `/` followed by 254
letters, but no zero byte is written: the one skipped `/` has used up the
zero-fill count, so the string left in `dst` runs through the stale byte
`dst[255]`. -/
theorem iso_mangle_name_unterminated :
    (iso_mangle_name 256 core_not_whitespace (List.replicate 256 255)
        ([47, 47] ++ List.replicate 254 97 ++ [0])).map cstr
      = some ([47] ++ List.replicate 254 97 ++ [255]) ∧
    mangled_name core_not_whitespace ([47, 47] ++ List.replicate 254 97 ++ [0])
      = [47] ++ List.replicate 254 97 := by
  decide

/-- C7 at a failing input, `FILENAME_MAX = 256`: a source of 257 letters `a`.
Handed exactly the 256-byte buffer the call faults (it writes outside it);
handed the buffer followed by one more byte `0x55` of adjacent memory, it
overwrites that byte, at index 256, with `a`, and nothing is zero-filled. -/
theorem iso_mangle_name_overflow :
    iso_mangle_name 256 core_not_whitespace (List.replicate 256 255)
        (List.replicate 257 97 ++ [0]) = none ∧
    iso_mangle_name 256 core_not_whitespace (List.replicate 256 255 ++ [85])
        (List.replicate 257 97 ++ [0]) = some (List.replicate 257 97) := by
  decide

/-- C8 at a failing input, `FILENAME_MAX = 256`: the source `a//b` into a
buffer that held 256 bytes `0xFF`.  The name `a/b` is followed by 252 zero
bytes only: the last byte `dst[255]` keeps its old value, while the source
`a/b`, which mangles to the same name, zero-fills the whole remainder. -/
theorem iso_mangle_name_short_fill :
    iso_mangle_name 256 core_not_whitespace (List.replicate 256 255) (bytes "a//b" ++ [0])
      = some (bytes "a/b" ++ List.replicate 252 0 ++ [255]) ∧
    iso_mangle_name 256 core_not_whitespace (List.replicate 256 255) (bytes "a/b" ++ [0])
      = some (bytes "a/b" ++ List.replicate 253 0) ∧
    mangled_name core_not_whitespace (bytes "a//b" ++ [0])
      = mangled_name core_not_whitespace (bytes "a/b" ++ [0]) := by
  decide

/-! ## Directory lookup -/

theorem peek_eq_getElem? (l : List Nat) : ∀ k, peek l k = l[k]? := by
  induction l with
  | nil => intro k; simp [peek]
  | cons a t ih =>
    intro k
    cases k with
    | zero => simp [peek]
    | succ k => simp [peek, ih]

theorem peek_isSome (l : List Nat) (k : Nat) (h : k < l.length) : ∃ b, peek l k = some b := by
  rw [peek_eq_getElem?]
  exact ⟨l[k], List.getElem?_eq_getElem h⟩

theorem chain_snd_ge (data : List Nat) : ∀ m off, off ≤ (chain data m off).2 := by
  intro m
  induction m with
  | zero => intro off; simp [chain]
  | succ m ih =>
    intro off
    unfold chain
    cases peek data off with
    | none => simp
    | some len =>
      simp only
      split
      · simp
      · have := ih (off + len)
        simp only
        omega

theorem chain_fuel_irrelevant (data : List Nat) :
    ∀ m m2 off, off ≤ BLOCK_SIZE → BLOCK_SIZE < off + 33 * m → BLOCK_SIZE < off + 33 * m2 →
      chain data m off = chain data m2 off := by
  intro m
  induction m with
  | zero => intro m2 off h1 h2 _; omega
  | succ m ih =>
    intro m2 off h1 h2 h3
    cases m2 with
    | zero => omega
    | succ m2 =>
      unfold chain
      cases peek data off with
      | none => rfl
      | some len =>
        simp only
        by_cases hc : len < 33 ∨ off + len > BLOCK_SIZE
        · rw [if_pos hc, if_pos hc]
        · rw [if_neg hc, if_neg hc]
          have := ih m2 (off + len) (by omega) (by omega) (by omega)
          rw [this]

theorem chain_accept (data : List Nat) (off len : Nat) (hoff : off ≤ BLOCK_SIZE)
    (hp : peek data off = some len) (hc : ¬ (len < 33 ∨ off + len > BLOCK_SIZE)) :
    chain data BLOCK_SIZE off
      = (off :: (chain data BLOCK_SIZE (off + len)).1, (chain data BLOCK_SIZE (off + len)).2) := by
  have hB : BLOCK_SIZE = 2047 + 1 := by decide
  have h1 : chain data (2047 + 1) off
      = (off :: (chain data 2047 (off + len)).1, (chain data 2047 (off + len)).2) := by
    rw [chain, hp]
    simp only
    rw [if_neg hc]
  have h2 : chain data 2047 (off + len) = chain data BLOCK_SIZE (off + len) := by
    apply chain_fuel_irrelevant
    · omega
    · rw [hB]; omega
    · rw [hB]; omega
  rw [← h2, ← h1, ← hB]

theorem chain_reject (data : List Nat) (off len : Nat)
    (hp : peek data off = some len) (hc : len < 33 ∨ off + len > BLOCK_SIZE) :
    chain data BLOCK_SIZE off = ([], off) := by
  have hB : BLOCK_SIZE = 2047 + 1 := by decide
  rw [hB, chain, hp]
  simp only
  rw [if_pos hc]

theorem find_entry_fault (cache : Nat → List Nat) (dname : List Nat) (st : FindSt) (blk : Nat)
    (hp : peek (cache blk) st.offset = none) :
    find_entry cache dname st blk = Step.fault := by
  rw [find_entry, hp]

theorem find_entry_reject (cache : Nat → List Nat) (dname : List Nat) (st : FindSt)
    (blk len : Nat) (hp : peek (cache blk) st.offset = some len)
    (hc : len < 33 ∨ st.offset + len > BLOCK_SIZE) :
    find_entry cache dname st blk
      = Step.next { st with offset := st.offset + len, data := none } := by
  rw [find_entry, hp]
  simp only
  rw [if_pos hc]

theorem find_entry_accept (cache : Nat → List Nat) (dname : List Nat) (st : FindSt)
    (blk len : Nat) (hp : peek (cache blk) st.offset = some len)
    (hc : ¬ (len < 33 ∨ st.offset + len > BLOCK_SIZE)) :
    find_entry cache dname st blk
      = match de_matches cache dname { block := blk, offset := st.offset } with
        | none => Step.fault
        | some true => Step.done (some { block := blk, offset := st.offset })
        | some false => Step.next { st with offset := st.offset + len, data := some blk } := by
  rw [find_entry, hp]
  simp only
  rw [if_neg hc]
  simp only [de_matches, DePtr.byte, DePtr.name]
  cases peek (cache blk) (st.offset + DE_NAME_LEN) with
  | none => rfl
  | some nl => simp only

/-- A pass through the loop of `iso_find_entry` that goes round again lowers
`find_measure` and keeps the loop invariant `i <= blocks`, `offset <=
BLOCK_SIZE` while a block is held. -/
theorem find_step_next (cache : Nat → List Nat) (dname : List Nat) (inode : Inode)
    (st st1 : FindSt) (hi : st.i ≤ inode.blocks)
    (ho : ∀ blk, st.data = some blk → st.offset ≤ BLOCK_SIZE)
    (h : find_step cache dname inode st = Step.next st1) :
    find_measure inode.blocks st1 < find_measure inode.blocks st ∧ st1.i ≤ inode.blocks ∧
      (∀ blk, st1.data = some blk → st1.offset ≤ BLOCK_SIZE) := by
  have hB : BLOCK_SIZE = 2048 := by decide
  have key : ∀ (s : FindSt) (blk : Nat), s.offset ≤ BLOCK_SIZE → s.i ≤ inode.blocks →
      find_entry cache dname s blk = Step.next st1 →
      (st1.i = s.i ∧ ((st1.data = none) ∨
        (st1.data = some blk ∧ s.offset + 33 ≤ st1.offset ∧ st1.offset ≤ BLOCK_SIZE))) := by
    intro s blk hso hsi hs
    cases hp : peek (cache blk) s.offset with
    | none => rw [find_entry_fault cache dname s blk hp] at hs; cases hs
    | some len =>
      by_cases hc : len < 33 ∨ s.offset + len > BLOCK_SIZE
      · rw [find_entry_reject cache dname s blk len hp hc] at hs
        cases hs
        exact ⟨rfl, Or.inl rfl⟩
      · rw [find_entry_accept cache dname s blk len hp hc] at hs
        cases hm : de_matches cache dname { block := blk, offset := s.offset } with
        | none => rw [hm] at hs; cases hs
        | some b =>
          cases b with
          | true => rw [hm] at hs; cases hs
          | false =>
            rw [hm] at hs
            cases hs
            refine ⟨rfl, Or.inr ⟨rfl, ?_, ?_⟩⟩ <;> simp only <;> omega
  unfold find_step at h
  cases hd : st.data with
  | none =>
    rw [hd] at h
    simp only at h
    by_cases hlast : st.i + 1 > inode.blocks
    · rw [if_pos hlast] at h; cases h
    · rw [if_neg hlast] at h
      obtain ⟨h1, h2⟩ := key _ _ (by simp) (by simp only; omega) h
      simp only at h1 h2
      rcases h2 with h2 | ⟨h2, h3, h4⟩
      · refine ⟨?_, by omega, by intro blk hb; rw [h2] at hb; cases hb⟩
        simp only [find_measure, h1, h2, hd, hB]
        omega
      · refine ⟨?_, by omega, by intro blk _; exact h4⟩
        simp only [find_measure, h1, h2, hd, hB]
        omega
  | some blk =>
    rw [hd] at h
    simp only at h
    have hso := ho blk hd
    obtain ⟨h1, h2⟩ := key st blk hso hi h
    rcases h2 with h2 | ⟨h2, h3, h4⟩
    · refine ⟨?_, by omega, by intro b hb; rw [h2] at hb; cases hb⟩
      simp only [find_measure, h1, h2, hd, hB]
      omega
    · refine ⟨?_, by omega, by intro b _; exact h4⟩
      simp only [find_measure, h1, h2, hd, hB]
      omega

/-- With fuel at least `find_measure`, the loop of `iso_find_entry` returns or
faults: the iteration bound of the embedding is never what stops it. -/
theorem find_loop_no_timeout (cache : Nat → List Nat) (dname : List Nat) (inode : Inode) :
    ∀ (fuel : Nat) (st : FindSt), find_measure inode.blocks st ≤ fuel →
      st.i ≤ inode.blocks → (∀ blk, st.data = some blk → st.offset ≤ BLOCK_SIZE) →
      find_loop cache dname inode fuel st ≠ Res.timeout := by
  intro fuel
  induction fuel with
  | zero =>
    intro st hm _ _
    simp only [find_measure] at hm
    omega
  | succ fuel ih =>
    intro st hm hi ho
    rw [find_loop]
    cases hs : find_step cache dname inode st with
    | next st1 =>
      simp only
      obtain ⟨h1, h2, h3⟩ := find_step_next cache dname inode st st1 hi ho hs
      exact ih st1 (by omega) h2 h3
    | done r => simp
    | fault => simp

theorem iso_find_entry_no_timeout (cache : Nat → List Nat) (dname : List Nat) (inode : Inode) :
    iso_find_entry cache dname inode ≠ Res.timeout := by
  apply find_loop_no_timeout
  · simp [find_measure]
  · simp
  · intro blk h; cases h

theorem range_drop_cons (n i : Nat) (h : i < n) :
    (List.range n).drop i = i :: (List.range n).drop (i + 1) := by
  rw [List.drop_eq_getElem_cons (by simpa using h)]
  simp

/-- One pass of the lookup loop from a state that holds a block agrees with
`first_match` on the records still to visit, given that the passes after it
do. -/
theorem find_entry_sound (cache : Nat → List Nat) (dname : List Nat) (inode : Inode)
    (hblk : ∀ b, inode.pvt ≤ b → b < inode.pvt + inode.blocks →
      BLOCK_SIZE ≤ (cache b).length ∧ chain_stop (cache b) < BLOCK_SIZE)
    (fuel : Nat)
    (ih : ∀ st : FindSt, find_inv cache inode.pvt inode.blocks st →
      find_loop cache dname inode fuel st ≠ Res.timeout →
      find_loop cache dname inode fuel st
        = first_match cache dname (find_remaining cache inode.pvt inode.blocks st))
    (st : FindSt) (blk : Nat) (hd : st.data = some blk)
    (hinv : find_inv cache inode.pvt inode.blocks st)
    (hnt : (match find_entry cache dname st blk with
            | Step.next st1 => find_loop cache dname inode fuel st1
            | Step.done r => Res.ok r
            | Step.fault => Res.fault) ≠ Res.timeout) :
    (match find_entry cache dname st blk with
      | Step.next st1 => find_loop cache dname inode fuel st1
      | Step.done r => Res.ok r
      | Step.fault => Res.fault)
      = first_match cache dname (find_remaining cache inode.pvt inode.blocks st) := by
  obtain ⟨hi, hdb, hcur⟩ := hinv
  obtain ⟨hb1, hi1, hstop⟩ := hcur blk hd
  have hoff : st.offset < BLOCK_SIZE :=
    Nat.lt_of_le_of_lt (chain_snd_ge (cache blk) BLOCK_SIZE st.offset) hstop
  have hlen : BLOCK_SIZE ≤ (cache blk).length := (hblk blk (by omega) (by omega)).1
  obtain ⟨len, hp⟩ := peek_isSome (cache blk) st.offset (by omega)
  by_cases hc : len < 33 ∨ st.offset + len > BLOCK_SIZE
  · rw [find_entry_reject cache dname st blk len hp hc] at hnt ⊢
    simp only at hnt ⊢
    have hrec := ih { i := st.i, dir_block := st.dir_block, offset := st.offset + len,
                      data := none } ⟨hi, hdb, by intro b hb; cases hb⟩ hnt
    rw [hrec]
    simp only [find_remaining, hd, chain_reject (cache blk) st.offset len hp hc]
    rfl
  · have hrem : find_remaining cache inode.pvt inode.blocks st
        = { block := blk, offset := st.offset }
          :: find_remaining cache inode.pvt inode.blocks
              { st with offset := st.offset + len, data := some blk } := by
      simp only [find_remaining, hd, chain_accept (cache blk) st.offset len (by omega) hp hc]
      rfl
    have hstop1 : (chain (cache blk) BLOCK_SIZE (st.offset + len)).2 < BLOCK_SIZE := by
      rw [chain_accept (cache blk) st.offset len (by omega) hp hc] at hstop
      exact hstop
    rw [find_entry_accept cache dname st blk len hp hc] at hnt ⊢
    rw [hrem, first_match]
    cases hm : de_matches cache dname { block := blk, offset := st.offset } with
    | none => rfl
    | some b =>
      cases b with
      | true => rfl
      | false =>
        rw [hm] at hnt
        simp only at hnt ⊢
        refine ih { i := st.i, dir_block := st.dir_block, offset := st.offset + len,
                    data := some blk } ⟨hi, hdb, ?_⟩ hnt
        intro b hb
        simp only [Option.some.injEq] at hb
        subst hb
        exact ⟨hb1, hi1, hstop1⟩

/-- The lookup loop agrees with `first_match` on the records still to visit. -/
theorem find_loop_sound (cache : Nat → List Nat) (dname : List Nat) (inode : Inode)
    (hblk : ∀ b, inode.pvt ≤ b → b < inode.pvt + inode.blocks →
      BLOCK_SIZE ≤ (cache b).length ∧ chain_stop (cache b) < BLOCK_SIZE) :
    ∀ (fuel : Nat) (st : FindSt), find_inv cache inode.pvt inode.blocks st →
      find_loop cache dname inode fuel st ≠ Res.timeout →
      find_loop cache dname inode fuel st
        = first_match cache dname (find_remaining cache inode.pvt inode.blocks st) := by
  intro fuel
  induction fuel with
  | zero => intro st _ hnt; simp [find_loop] at hnt
  | succ fuel ih =>
    intro st hinv hnt
    rw [find_loop] at hnt ⊢
    cases hd : st.data with
    | none =>
      obtain ⟨hi, hdb, _⟩ := hinv
      simp only [find_step, hd] at hnt ⊢
      by_cases hlast : st.i + 1 > inode.blocks
      · rw [if_pos hlast]
        have : (List.range inode.blocks).drop st.i = [] := by
          apply List.drop_eq_nil_of_le
          simp; omega
        simp [find_remaining, hd, this, first_match]
      · rw [if_neg hlast] at hnt ⊢
        have hrem : find_remaining cache inode.pvt inode.blocks st
            = find_remaining cache inode.pvt inode.blocks
                { i := st.i + 1, dir_block := st.dir_block + 1, offset := 0,
                  data := some st.dir_block } := by
          simp only [find_remaining, hd, List.nil_append]
          rw [range_drop_cons inode.blocks st.i (by omega), List.flatMap_cons, hdb]
          rfl
        rw [hrem]
        refine find_entry_sound cache dname inode hblk fuel ih _ st.dir_block rfl ?_ hnt
        refine ⟨by simp only; omega, by simp only; omega, ?_⟩
        intro b hb
        simp only [Option.some.injEq] at hb
        subst hb
        refine ⟨rfl, by simp, ?_⟩
        exact (hblk st.dir_block (by omega) (by omega)).2
    | some blk =>
      simp only [find_step, hd] at hnt ⊢
      exact find_entry_sound cache dname inode hblk fuel ih st blk hd hinv hnt

/-- Under the hypothesis of C1 the lookup returns what `first_match` gives on
the record sequence of the directory. -/
theorem iso_find_entry_eq_first_match (cache : Nat → List Nat) (dname : List Nat)
    (inode : Inode)
    (hblk : ∀ b, inode.pvt ≤ b → b < inode.pvt + inode.blocks →
      BLOCK_SIZE ≤ (cache b).length ∧ chain_stop (cache b) < BLOCK_SIZE) :
    iso_find_entry cache dname inode
      = first_match cache dname (dir_records cache inode.pvt inode.blocks) := by
  have h := find_loop_sound cache dname inode hblk ((BLOCK_SIZE + 1) * inode.blocks + 1)
    { i := 0, dir_block := inode.pvt, offset := 0, data := none }
    ⟨by simp, by simp, by intro b hb; cases hb⟩ (iso_find_entry_no_timeout cache dname inode)
  rw [iso_find_entry, h]
  simp [find_remaining, dir_records]

theorem first_match_some_iff (cache : Nat → List Nat) (dname : List Nat) (de : DePtr) :
    ∀ l : List DePtr, first_match cache dname l = Res.ok (some de) ↔
      ∃ pre post, l = pre ++ de :: post ∧
        (∀ d ∈ pre, de_matches cache dname d = some false) ∧
        de_matches cache dname de = some true := by
  intro l
  induction l with
  | nil => simp [first_match]
  | cons x xs ih =>
    rw [first_match]
    cases hm : de_matches cache dname x with
    | none =>
      simp only
      constructor
      · intro h; cases h
      · rintro ⟨pre, post, hl, hpre, hde⟩
        cases pre with
        | nil =>
          simp only [List.nil_append, List.cons.injEq] at hl
          rw [← hl.1, hm] at hde; cases hde
        | cons p ps =>
          simp only [List.cons_append, List.cons.injEq] at hl
          have := hpre p (by simp)
          rw [← hl.1, hm] at this; cases this
    | some b =>
      cases b with
      | true =>
        simp only
        constructor
        · intro h
          simp only [Res.ok.injEq, Option.some.injEq] at h
          subst h
          exact ⟨[], xs, rfl, by simp, hm⟩
        · rintro ⟨pre, post, hl, hpre, hde⟩
          cases pre with
          | nil =>
            simp only [List.nil_append, List.cons.injEq] at hl
            rw [hl.1]
          | cons p ps =>
            simp only [List.cons_append, List.cons.injEq] at hl
            have := hpre p (by simp)
            rw [← hl.1, hm] at this; cases this
      | false =>
        simp only
        rw [ih]
        constructor
        · rintro ⟨pre, post, hl, hpre, hde⟩
          refine ⟨x :: pre, post, by simp [hl], ?_, hde⟩
          intro d hd
          rcases List.mem_cons.1 hd with h | h
          · rw [h]; exact hm
          · exact hpre d h
        · rintro ⟨pre, post, hl, hpre, hde⟩
          cases pre with
          | nil =>
            simp only [List.nil_append, List.cons.injEq] at hl
            rw [← hl.1, hm] at hde; cases hde
          | cons p ps =>
            simp only [List.cons_append, List.cons.injEq] at hl
            exact ⟨ps, post, hl.2, fun d hd => hpre d (by simp [hd]), hde⟩

theorem first_match_none_iff (cache : Nat → List Nat) (dname : List Nat) :
    ∀ l : List DePtr, first_match cache dname l = Res.ok none ↔
      ∀ d ∈ l, de_matches cache dname d = some false := by
  intro l
  induction l with
  | nil => simp [first_match]
  | cons x xs ih =>
    rw [first_match]
    cases hm : de_matches cache dname x with
    | none =>
      simp only
      constructor
      · intro h; cases h
      · intro h
        have := h x (by simp)
        rw [hm] at this; cases this
    | some b =>
      cases b with
      | true =>
        simp only
        constructor
        · intro h; cases h
        · intro h
          have := h x (by simp)
          rw [hm] at this; cases this
      | false =>
        simp only
        rw [ih]
        constructor
        · intro h d hd
          rcases List.mem_cons.1 hd with h1 | h1
          · rw [h1]; exact hm
          · exact h d h1
        · intro h d hd
          exact h d (by simp [hd])

theorem mk_block_length (records : List (List Nat))
    (h : records.flatten.length ≤ BLOCK_SIZE) : (mk_block records).length = BLOCK_SIZE := by
  rw [mk_block, List.length_append, List.length_replicate]
  omega

theorem two_block_dir_wellformed :
    ∀ b, (dir_inode 20 2).pvt ≤ b → b < (dir_inode 20 2).pvt + (dir_inode 20 2).blocks →
      BLOCK_SIZE ≤ (two_block_dir b).length ∧ chain_stop (two_block_dir b) < BLOCK_SIZE := by
  intro b h1 h2
  have h1 : 20 ≤ b := h1
  have h2 : b < 22 := h2
  have hb : b = 20 ∨ b = 21 := by omega
  rcases hb with rfl | rfl
  · constructor
    · have : two_block_dir 20 = mk_block [mk_record 40 0 100 5000 (bytes "A.TXT;1")] := rfl
      rw [this, mk_block_length _ (by decide)]
    · decide
  · constructor
    · have : two_block_dir 21 = mk_block [mk_record 40 2 200 2048 (bytes "SUBDIR")] := rfl
      rw [this, mk_block_length _ (by decide)]
    · decide

/-- The lookup where every comparison it makes returns a boolean: in a
directory whose blocks are readable for `BLOCK_SIZE` bytes and whose record
chains stop below `BLOCK_SIZE`, `iso_find_entry` returns a record exactly when
that record is the first of the sequence `dir_records` (blocks `s .. s+n-1` in
order, each chained from offset 0) that compares true under
`iso_compare_name`, every record before it comparing false; it returns `NULL`
exactly when every record of the sequence compares false; and then `iso_iget`
returns no inode and leaves the parent inode unchanged.  A comparison that
reads past the block memory or writes past the array `iso_file_name` is
neither: the lookup then faults. -/
theorem iso_find_entry_first_match (cache : Nat → List Nat) (dname : List Nat)
    (parent : Inode) (alloc_ok : Bool)
    (hblk : ∀ b, parent.pvt ≤ b → b < parent.pvt + parent.blocks →
      BLOCK_SIZE ≤ (cache b).length ∧ chain_stop (cache b) < BLOCK_SIZE) :
    (∀ de, iso_find_entry cache dname parent = Res.ok (some de) ↔
      ∃ pre post, dir_records cache parent.pvt parent.blocks = pre ++ de :: post ∧
        (∀ d ∈ pre, de_matches cache dname d = some false) ∧
        de_matches cache dname de = some true) ∧
    (iso_find_entry cache dname parent = Res.ok none ↔
      ∀ d ∈ dir_records cache parent.pvt parent.blocks,
        de_matches cache dname d = some false) ∧
    (iso_find_entry cache dname parent = Res.ok none →
      iso_iget cache alloc_ok dname parent = (Res.ok none, parent)) := by
  have heq := iso_find_entry_eq_first_match cache dname parent hblk
  refine ⟨?_, ?_, ?_⟩
  · intro de
    rw [heq]
    exact first_match_some_iff cache dname de _
  · rw [heq]
    exact first_match_none_iff cache dname _
  · intro h
    rw [iso_iget, h]

/-- The lookup in the two-block directory `two_block_dir` of the name `subdir`,
which is the record at offset 0 of the second block, and of a name that is
not there. -/
theorem iso_find_entry_first_match_witness :
    (∀ b, (dir_inode 20 2).pvt ≤ b → b < (dir_inode 20 2).pvt + (dir_inode 20 2).blocks →
      BLOCK_SIZE ≤ (two_block_dir b).length ∧ chain_stop (two_block_dir b) < BLOCK_SIZE) ∧
    (iso_find_entry two_block_dir (bytes "subdir" ++ [0]) (dir_inode 20 2)
        = Res.ok (some { block := 21, offset := 0 }) ↔
      ∃ pre post, dir_records two_block_dir 20 2 = pre ++ { block := 21, offset := 0 } :: post ∧
        (∀ d ∈ pre, de_matches two_block_dir (bytes "subdir" ++ [0]) d = some false) ∧
        de_matches two_block_dir (bytes "subdir" ++ [0]) { block := 21, offset := 0 }
          = some true) ∧
    (iso_find_entry two_block_dir (bytes "nope" ++ [0]) (dir_inode 20 2) = Res.ok none →
      iso_iget two_block_dir true (bytes "nope" ++ [0]) (dir_inode 20 2)
        = (Res.ok none, dir_inode 20 2)) :=
  ⟨two_block_dir_wellformed,
   (iso_find_entry_first_match two_block_dir (bytes "subdir" ++ [0]) (dir_inode 20 2) true
      two_block_dir_wellformed).1 { block := 21, offset := 0 },
   (iso_find_entry_first_match two_block_dir (bytes "nope" ++ [0]) (dir_inode 20 2) true
      two_block_dir_wellformed).2.2⟩

/-- C2 at a failing input: the two-block directory `two_block_dir`.  The scan
of `iso_find_entry` visits two records, one at offset 0 of each block.  The
first `iso_readdir` call from file offset 0 returns the first record and
leaves the file offset at 40; the second call finds a zero length byte at
offset 40 of block 20, fetches block 21, reads it at the stale offset 40
instead of 0, gives that block up too and returns end: the record of block 21
is never returned. -/
theorem iso_readdir_misses_second_block :
    dir_records two_block_dir 20 2 = [{ block := 20, offset := 0 }, { block := 21, offset := 0 }] ∧
    iso_find_entry two_block_dir (bytes "subdir" ++ [0]) (dir_inode 20 2)
      = Res.ok (some { block := 21, offset := 0 }) ∧
    iso_readdir two_block_dir true { inode := dir_inode 20 2, offset := 0 }
      = Res.ok (some { d_ino := 0, d_off := 0, d_type := Mode.I_FILE, d_reclen := 5,
                       d_name := bytes "a.txt" ++ [0] },
                { inode := dir_inode 20 2, offset := 40 }) ∧
    iso_readdir two_block_dir true { inode := dir_inode 20 2, offset := 40 }
      = Res.ok (none, { inode := dir_inode 20 2, offset := 2048 }) := by
  decide

/-! ### The string `iso_mangle_name` leaves when the zero fill is not used up -/

theorem collapse_slashes_length_le : ∀ l : List Nat, (collapse_slashes l).length ≤ l.length
  | [] => by simp [collapse_slashes]
  | [_] => by simp [collapse_slashes]
  | c :: d :: rest => by
    have ih := collapse_slashes_length_le (d :: rest)
    rw [collapse_slashes]
    split
    · simp only [List.length_cons] at ih ⊢; omega
    · simp only [List.length_cons] at ih ⊢; omega

/-- The copy loop writes the collapsed leading part of `src` and counts `i`
down once for every byte of that leading part, skipped or copied. -/
theorem mangle_copy_eq (nws : Nat → Bool) (src : List Nat) :
    ∀ st : MangleSt, (∃ c ∈ src, nws c = false) →
      (collapse_slashes (src.takeWhile nws)).length ≤ st.after.length →
      mangle_copy nws src st
        = some { before := (collapse_slashes (src.takeWhile nws)).reverse ++ st.before,
                 after := st.after.drop (collapse_slashes (src.takeWhile nws)).length,
                 i := st.i - (src.takeWhile nws).length } := by
  induction src with
  | nil => intro st h; obtain ⟨c, hc, _⟩ := h; cases hc
  | cons c rest ih =>
    intro st hterm hfit
    unfold mangle_copy
    by_cases hn : nws c = true
    · have hterm2 : ∃ x ∈ rest, nws x = false := by
        obtain ⟨x, hx, hxf⟩ := hterm
        rcases List.mem_cons.1 hx with h | h
        · rw [h, hn] at hxf; cases hxf
        · exact ⟨x, h, hxf⟩
      have htw : (c :: rest).takeWhile nws = c :: rest.takeWhile nws := by
        simp [List.takeWhile_cons, hn]
      rw [htw] at hfit ⊢
      rw [if_pos hn]
      -- the shape of the rest decides between skip and copy
      have put : ∀ (hne : ¬ (c = 47 ∧ rest.head? = some 47)),
          (match mangle_put st c with
            | none => none
            | some st1 => mangle_copy nws rest st1)
            = some { before := (collapse_slashes (c :: rest.takeWhile nws)).reverse ++ st.before,
                     after := st.after.drop (collapse_slashes (c :: rest.takeWhile nws)).length,
                     i := st.i - ((c :: rest.takeWhile nws).length : Nat) } := by
        intro hne
        have hcol : collapse_slashes (c :: rest.takeWhile nws)
            = c :: collapse_slashes (rest.takeWhile nws) := by
          cases htr : rest.takeWhile nws with
          | nil => simp [collapse_slashes]
          | cons d r =>
            rw [collapse_slashes]
            have hd : rest.head? = some d := by
              cases rest with
              | nil => simp at htr
              | cons e es =>
                rw [List.takeWhile_cons] at htr
                split at htr
                · simp only [List.cons.injEq] at htr
                  simp [htr.1]
                · cases htr
            rw [if_neg]
            rintro ⟨h1, h2⟩
            exact hne ⟨h1, by rw [hd, h2]⟩
        rw [hcol] at hfit ⊢
        simp only [List.length_cons] at hfit
        cases hafter : st.after with
        | nil => rw [hafter] at hfit; simp at hfit
        | cons a as =>
          simp only [mangle_put, hafter]
          rw [ih _ hterm2 (by simp only; rw [hafter] at hfit; simp only [List.length_cons] at hfit; omega)]
          simp only [List.reverse_cons, List.append_assoc, List.singleton_append,
            List.length_cons, List.drop_succ_cons, Nat.cast_add, Nat.cast_one]
          congr 2
          omega
      by_cases h47 : c = 47
      · rw [if_pos h47]
        cases rest with
        | nil => obtain ⟨x, hx, _⟩ := hterm2; cases hx
        | cons d r =>
          simp only
          by_cases hd : d = 47
          · rw [if_pos hd]
            have hnd : nws d = true := by rw [hd, ← h47]; exact hn
            have htw2 : (d :: r).takeWhile nws = d :: r.takeWhile nws := by
              simp [List.takeWhile_cons, hnd]
            have hcol : collapse_slashes (c :: (d :: r).takeWhile nws)
                = collapse_slashes ((d :: r).takeWhile nws) := by
              rw [htw2, collapse_slashes, if_pos ⟨h47, hd⟩]
            rw [hcol] at hfit ⊢
            rw [ih { before := st.before, after := st.after, i := st.i - 1 } hterm2 hfit]
            simp only [List.length_cons, Nat.cast_add, Nat.cast_one]
            congr 2
            omega
          · rw [if_neg hd]
            exact put (by rintro ⟨_, h2⟩; simp only [List.head?_cons, Option.some.injEq] at h2; exact hd h2)
      · rw [if_neg h47]
        exact put (fun h => h47 h.1)
    · have hn2 : nws c = false := by simpa using hn
      rw [if_neg hn]
      simp [List.takeWhile_cons, hn2, collapse_slashes]

theorem collapse_slashes_subset : ∀ (l : List Nat) (x : Nat), x ∈ collapse_slashes l → x ∈ l
  | [], x, h => by simp [collapse_slashes] at h
  | [c], x, h => by simpa [collapse_slashes] using h
  | c :: d :: rest, x, h => by
    rw [collapse_slashes] at h
    split at h
    · exact List.mem_cons_of_mem _ (collapse_slashes_subset (d :: rest) x h)
    · rcases List.mem_cons.1 h with h1 | h1
      · rw [h1]; simp
      · exact List.mem_cons_of_mem _ (collapse_slashes_subset (d :: rest) x h1)

theorem mangle_strip_eq : ∀ (before after : List Nat) (i : Int),
    mangle_strip before after i
      = { before := before.dropWhile (fun c => c == 46 || c == 47),
          after := (before.takeWhile (fun c => c == 46 || c == 47)).reverse ++ after,
          i := i + ((before.takeWhile (fun c => c == 46 || c == 47)).length : Nat) }
  | [], after, i => by simp [mangle_strip]
  | c :: before, after, i => by
    rw [mangle_strip]
    by_cases hc : c ≠ 46 ∧ c ≠ 47
    · rw [if_pos hc]
      have : (c == 46 || c == 47) = false := by simp [hc.1, hc.2]
      simp [List.dropWhile_cons, List.takeWhile_cons, this]
    · rw [if_neg hc, mangle_strip_eq before (c :: after) (i + 1)]
      have : (c == 46 || c == 47) = true := by
        simp only [Bool.or_eq_true, beq_iff_eq]
        by_cases h : c = 46
        · exact Or.inl h
        · exact Or.inr (by_contra fun h2 => hc ⟨h, h2⟩)
      simp only [List.dropWhile_cons, List.takeWhile_cons, this, if_true, List.reverse_cons,
        List.append_assoc, List.singleton_append, List.length_cons, Nat.cast_add, Nat.cast_one]
      congr 1
      omega

theorem mangle_fill_eq : ∀ (count : Nat) (before after : List Nat), count ≤ after.length →
    mangle_fill count before after
      = some (List.replicate count 0 ++ before, after.drop count)
  | 0, before, after, _ => by simp [mangle_fill]
  | count + 1, before, after, h => by
    cases after with
    | nil => simp at h
    | cons a as =>
      rw [mangle_fill]
      rw [mangle_fill_eq count (0 :: before) as (by simpa using h)]
      simp only [List.drop_succ_cons, Option.some.injEq, Prod.mk.injEq, and_true]
      rw [List.replicate_succ', List.append_assoc]
      rfl

/-- Outside the defect: when the source is terminated, the buffer holds
`FILENAME_MAX` bytes, the copied part fits, and the length of the mangled name
plus the number of skipped `/` stays below `FILENAME_MAX`, `iso_mangle_name`
leaves the specified name, zero-terminated, at the start of `dst`. -/
theorem iso_mangle_name_string (FILENAME_MAX : Nat) (nws : Nat → Bool) (dst src : List Nat)
    (hz : nws 0 = false) (hterm : ∃ c ∈ src, nws c = false)
    (hdst : FILENAME_MAX ≤ dst.length)
    (hcopy : (collapse_slashes (src.takeWhile nws)).length ≤ FILENAME_MAX)
    (hfit : (mangled_name nws src).length + skipped_slashes nws src < FILENAME_MAX) :
    ∃ mem, iso_mangle_name FILENAME_MAX nws dst src = some mem ∧
      cstr mem = mangled_name nws src := by
  have hle := collapse_slashes_length_le (src.takeWhile nws)
  have hcp := mangle_copy_eq nws src
    { before := [], after := dst, i := (FILENAME_MAX : Int) - 1 } hterm
    (by simp only; omega)
  simp only [List.append_nil] at hcp
  rw [iso_mangle_name, hcp]
  simp only
  rw [mangle_strip_eq]
  simp only
  simp only [mangled_name, strip_dots_slashes, skipped_slashes] at hfit ⊢
  generalize hcol : collapse_slashes (src.takeWhile nws) = col at hfit hle hcopy ⊢
  have hsplit : (col.reverse.takeWhile (fun c => c == 46 || c == 47)).length
      + (col.reverse.dropWhile (fun c => c == 46 || c == 47)).length = col.length := by
    have := congrArg List.length
      (List.takeWhile_append_dropWhile (fun c => c == 46 || c == 47) col.reverse)
    rw [List.length_append, List.length_reverse] at this
    exact this
  have hcount : ((FILENAME_MAX : Int) - 1 - ((src.takeWhile nws).length : Nat)
      + ((col.reverse.takeWhile (fun c => c == 46 || c == 47)).length : Nat) + 1).toNat
      = FILENAME_MAX + (col.reverse.takeWhile (fun c => c == 46 || c == 47)).length
          - (src.takeWhile nws).length := by
    simp only [List.length_reverse] at hfit
    omega
  rw [hcount]
  have hfill := mangle_fill_eq
    (FILENAME_MAX + (col.reverse.takeWhile (fun c => c == 46 || c == 47)).length
      - (src.takeWhile nws).length)
    (col.reverse.dropWhile (fun c => c == 46 || c == 47))
    ((col.reverse.takeWhile (fun c => c == 46 || c == 47)).reverse ++ dst.drop col.length)
    (by simp only [List.length_append, List.length_reverse, List.length_drop]; omega)
  rw [hfill]
  simp only
  refine ⟨_, rfl, ?_⟩
  have hpos : FILENAME_MAX + (col.reverse.takeWhile (fun c => c == 46 || c == 47)).length
      - (src.takeWhile nws).length
      = (FILENAME_MAX + (col.reverse.takeWhile (fun c => c == 46 || c == 47)).length
          - (src.takeWhile nws).length - 1) + 1 := by
    simp only [List.length_reverse] at hfit
    omega
  rw [hpos, List.replicate_succ']
  simp only [List.reverse_append, List.reverse_cons, List.reverse_nil, List.nil_append,
    List.append_assoc, List.singleton_append]
  apply cstr_append_zero
  intro c hc
  have h1 : c ∈ col.reverse :=
    (List.dropWhile_sublist (fun c => c == 46 || c == 47)).subset (List.mem_reverse.1 hc)
  have h2 : c ∈ src.takeWhile nws := by
    rw [← hcol] at h1
    exact collapse_slashes_subset _ _ (List.mem_reverse.1 h1)
  have h3 : nws c = true := List.mem_takeWhile_imp h2
  intro h0
  rw [h0, hz] at h3
  cases h3

/-! ## Name codec: examples and independence of the bytes after the name -/

/-- C15, the claim as stated fails: on the raw name `README.;1` (len 9) the
candidate `readme.` does not match: the conversion strips the trailing dot of
the on-disk name, the candidate keeps its dot. -/
theorem iso_compare_name_readme_dot_counterexample :
    iso_compare_name (bytes "README.;1") 9 (bytes "readme." ++ [0]) = some false := by
  decide

/-- C15 as amended: the raw name `README.;1` (len 9) converts to `readme`; it
matches the candidates `README` and `readme` and does not match the candidate
`readme.`. -/
theorem iso_compare_name_readme :
    iso_convert_name (bytes "README.;1") 9 = some (bytes "readme" ++ [0], 6) ∧
    iso_compare_name (bytes "README.;1") 9 (bytes "README" ++ [0]) = some true ∧
    iso_compare_name (bytes "README.;1") 9 (bytes "readme" ++ [0]) = some true ∧
    iso_compare_name (bytes "README.;1") 9 (bytes "readme." ++ [0]) = some false := by
  decide

/-- C19 at a failing input: the name field `DOC` (len 3) followed by a zero
byte converts to `doc`; the same three bytes followed by the length byte 40 of
the next record convert to `doc(`, length 4.  In the directory `odd_name_dir`
the record of `DOC` is followed directly by the next record, its name is
compared as `doc(`, and the lookup of `doc` returns not-found although the
record is there. -/
theorem iso_convert_name_reads_past_len :
    (bytes "DOC" ++ [0]).take 3 = (bytes "DOC" ++ [40, 0]).take 3 ∧
    iso_convert_name (bytes "DOC" ++ [0]) 3 = some (bytes "doc" ++ [0], 3) ∧
    iso_convert_name (bytes "DOC" ++ [40, 0]) 3 = some (bytes "doc(" ++ [0], 4) ∧
    iso_compare_name (bytes "DOC" ++ [0]) 3 (bytes "doc" ++ [0]) = some true ∧
    iso_compare_name (bytes "DOC" ++ [40, 0]) 3 (bytes "doc" ++ [0]) = some false ∧
    dir_records odd_name_dir 20 1 = [{ block := 20, offset := 0 }, { block := 20, offset := 36 }] ∧
    iso_convert_name (DePtr.name odd_name_dir { block := 20, offset := 0 }) 3
      = some (bytes "doc(" ++ [0], 4) ∧
    iso_find_entry odd_name_dir (bytes "doc" ++ [0]) (dir_inode 20 1) = Res.ok none := by
  decide

/-! ## Inodes from directory records -/

theorem iso_get_inode_ok (cache : Nat → List Nat) (de : DePtr) (flags size extent : Nat)
    (hf : de.byte cache DE_FLAGS = some flags) (hs : de.le32 cache DE_SIZE = some size)
    (he : de.le32 cache DE_EXTENT = some extent) :
    iso_get_inode cache true de
      = Res.ok (some { mode := get_inode_mode flags, size := size, pvt := extent,
                       blocks := ((size + BLOCK_SIZE - 1) % 2 ^ 32) >>> BLOCK_SHIFT }) := by
  simp [iso_get_inode, hf, hs, he]

theorem blocks_eq_ceil (size : Nat) (h : size + 2047 < 2 ^ 32) :
    ((size + BLOCK_SIZE - 1) % 2 ^ 32) >>> BLOCK_SHIFT = (size + 2047) / 2048 := by
  have hB : BLOCK_SIZE = 2048 := by decide
  have hS : BLOCK_SHIFT = 11 := rfl
  rw [hB, hS, Nat.shiftRight_eq_div_pow]
  have : size + 2048 - 1 = size + 2047 := by omega
  rw [this, Nat.mod_eq_of_lt h]

theorem blocks_wrapped (size : Nat) (h1 : 2 ^ 32 ≤ size + 2047) (h2 : size < 2 ^ 32) :
    ((size + BLOCK_SIZE - 1) % 2 ^ 32) >>> BLOCK_SHIFT = 0 := by
  have hB : BLOCK_SIZE = 2048 := by decide
  have hS : BLOCK_SHIFT = 11 := rfl
  rw [hB, hS, Nat.shiftRight_eq_div_pow]
  have h3 : (size + 2048 - 1) % 2 ^ 32 = size + 2047 - 2 ^ 32 := by omega
  rw [h3]
  apply Nat.div_eq_of_lt
  omega

theorem le32_isSome (root : List Nat) (k : Nat) (h : k + 3 < root.length) :
    ∃ v, DePtr.le32 (fun _ => root) { block := 0, offset := 0 } k = some v := by
  obtain ⟨b0, h0⟩ := peek_isSome root (0 + k) (by omega)
  obtain ⟨b1, h1⟩ := peek_isSome root (0 + (k + 1)) (by omega)
  obtain ⟨b2, h2⟩ := peek_isSome root (0 + (k + 2)) (by omega)
  obtain ⟨b3, h3⟩ := peek_isSome root (0 + (k + 3)) (by omega)
  exact ⟨b0 + 256 * b1 + 65536 * b2 + 16777216 * b3,
    by simp only [DePtr.le32, DePtr.byte, h0, h1, h2, h3]⟩

/-- C13 at a failing input: a record of a file with size field `0xFFFFFFFF`
(flags 0, extent 100).  `iso_get_inode` builds an inode of kind file, size
4294967295, start block 100, and block count 0, where `ceil(size / 2048)` is
2097152: the sum `size + 2047` wraps around in 32 bits. -/
theorem iso_get_inode_blocks_wrap :
    iso_get_inode (fun _ => mk_record 40 0 100 4294967295 (bytes "A.TXT;1")) true
        { block := 0, offset := 0 }
      = Res.ok (some { mode := Mode.I_FILE, size := 4294967295, blocks := 0, pvt := 100 }) ∧
    (4294967295 + 2047) / 2048 = 2097152 := by
  decide

/-- C14, the claim as stated fails: for a stored root record whose flag byte
has bit 0x02 clear (here flags 0, extent 100, size 2048) `iso_iget_root`
returns a directory inode and `iso_get_inode` a file inode. -/
theorem iso_iget_root_kind_counterexample :
    iso_iget_root (mk_record 34 0 100 2048 [0]) true
      = Res.ok (some { mode := Mode.I_DIR, size := 2048, blocks := 1, pvt := 100 }) ∧
    iso_get_inode (fun _ => mk_record 34 0 100 2048 [0]) true { block := 0, offset := 0 }
      = Res.ok (some { mode := Mode.I_FILE, size := 2048, blocks := 1, pvt := 100 }) := by
  decide

/-- C14 as amended: for every stored root record (its 33 header bytes
present), `iso_iget_root` and `iso_get_inode` applied to that record both
return `NULL` when no inode can be allocated, and otherwise return inodes with
the same size, start block and block count; the kind of the root inode is
always directory, so the two inodes are equal exactly when flag bit 0x02 of
the root record is set. -/
theorem iso_iget_root_eq_get_inode (root : List Nat) (alloc_ok : Bool)
    (hlen : DE_NAME ≤ root.length) :
    (alloc_ok = false →
      iso_iget_root root alloc_ok = Res.ok none ∧
      iso_get_inode (fun _ => root) alloc_ok { block := 0, offset := 0 } = Res.ok none) ∧
    (alloc_ok = true →
      ∃ r g flags,
        iso_iget_root root alloc_ok = Res.ok (some r) ∧
        iso_get_inode (fun _ => root) alloc_ok { block := 0, offset := 0 } = Res.ok (some g) ∧
        peek root DE_FLAGS = some flags ∧
        r.mode = Mode.I_DIR ∧ g.mode = get_inode_mode flags ∧
        r.size = g.size ∧ r.pvt = g.pvt ∧ r.blocks = g.blocks ∧
        (r = g ↔ flags &&& 0x02 ≠ 0)) := by
  have hN : DE_NAME = 33 := rfl
  rw [hN] at hlen
  constructor
  · intro h
    subst h
    exact ⟨rfl, rfl⟩
  · intro h
    subst h
    obtain ⟨size, hs⟩ := le32_isSome root DE_SIZE (by simp only [DE_SIZE]; omega)
    obtain ⟨extent, he⟩ := le32_isSome root DE_EXTENT (by simp only [DE_EXTENT]; omega)
    obtain ⟨flags, hf⟩ := peek_isSome root (0 + DE_FLAGS) (by simp only [DE_FLAGS]; omega)
    have hf2 : DePtr.byte (fun _ => root) { block := 0, offset := 0 } DE_FLAGS = some flags := hf
    refine ⟨{ mode := Mode.I_DIR, size := size, pvt := extent,
              blocks := ((size + BLOCK_SIZE - 1) % 2 ^ 32) >>> BLOCK_SHIFT },
            { mode := get_inode_mode flags, size := size, pvt := extent,
              blocks := ((size + BLOCK_SIZE - 1) % 2 ^ 32) >>> BLOCK_SHIFT },
            flags, ?_, iso_get_inode_ok _ _ flags size extent hf2 hs he, ?_, rfl, rfl,
      rfl, rfl, rfl, ?_⟩
    · simp only [iso_iget_root, hs, he, if_true]
    · simpa using hf
    · simp only [Inode.mk.injEq, and_true, get_inode_mode]
      by_cases hb : flags &&& 0x02 ≠ 0
      · simp [hb]
      · simp [hb]

/-- The amended C14 at a root record with the directory flag set: both
functions return the same directory inode. -/
theorem iso_iget_root_eq_get_inode_witness :
    DE_NAME ≤ (mk_record 34 2 100 2048 [0]).length ∧
    ((true = false →
      iso_iget_root (mk_record 34 2 100 2048 [0]) true = Res.ok none ∧
      iso_get_inode (fun _ => mk_record 34 2 100 2048 [0]) true { block := 0, offset := 0 }
        = Res.ok none) ∧
    (true = true →
      ∃ r g flags,
        iso_iget_root (mk_record 34 2 100 2048 [0]) true = Res.ok (some r) ∧
        iso_get_inode (fun _ => mk_record 34 2 100 2048 [0]) true { block := 0, offset := 0 }
          = Res.ok (some g) ∧
        peek (mk_record 34 2 100 2048 [0]) DE_FLAGS = some flags ∧
        r.mode = Mode.I_DIR ∧ g.mode = get_inode_mode flags ∧
        r.size = g.size ∧ r.pvt = g.pvt ∧ r.blocks = g.blocks ∧
        (r = g ↔ flags &&& 0x02 ≠ 0))) :=
  ⟨by decide, iso_iget_root_eq_get_inode (mk_record 34 2 100 2048 [0]) true (by decide)⟩

/-! ## Configuration file discovery -/

theorem config_name_eq (FILENAME_MAX : Nat) (dir : List Nat)
    (h : dir.length + 14 ≤ FILENAME_MAX) :
    config_name FILENAME_MAX dir = dir ++ bytes "/isolinux.cfg" := by
  unfold config_name
  apply List.take_of_length_le
  have : (bytes "/isolinux.cfg").length = 13 := by decide
  rw [List.length_append, this]
  omega

/-- C17: with `core_open` an oracle `open_ok` on paths and a `ConfigName`
buffer that holds the longest path (28 bytes with its terminator),
`iso_load_config` probes `/boot/isolinux/isolinux.cfg`,
`/isolinux/isolinux.cfg` and `//isolinux.cfg` in that order, stops at the
first path the oracle accepts, calls `chdir` with that directory and returns
0; it returns -1 exactly when the oracle rejects all three paths, and then
makes no `chdir` call. -/
theorem iso_load_config_priority (FILENAME_MAX : Nat) (open_ok : List Nat → Bool)
    (hmax : 28 ≤ FILENAME_MAX) :
    (open_ok (bytes "/boot/isolinux/isolinux.cfg") = true →
      iso_load_config FILENAME_MAX open_ok
        = { ret := 0, chdir := some (bytes "/boot/isolinux"),
            probes := [bytes "/boot/isolinux/isolinux.cfg"] }) ∧
    (open_ok (bytes "/boot/isolinux/isolinux.cfg") = false →
      open_ok (bytes "/isolinux/isolinux.cfg") = true →
      iso_load_config FILENAME_MAX open_ok
        = { ret := 0, chdir := some (bytes "/isolinux"),
            probes := [bytes "/boot/isolinux/isolinux.cfg", bytes "/isolinux/isolinux.cfg"] }) ∧
    (open_ok (bytes "/boot/isolinux/isolinux.cfg") = false →
      open_ok (bytes "/isolinux/isolinux.cfg") = false →
      open_ok (bytes "//isolinux.cfg") = true →
      iso_load_config FILENAME_MAX open_ok
        = { ret := 0, chdir := some (bytes "/"),
            probes := [bytes "/boot/isolinux/isolinux.cfg", bytes "/isolinux/isolinux.cfg",
                       bytes "//isolinux.cfg"] }) ∧
    (open_ok (bytes "/boot/isolinux/isolinux.cfg") = false →
      open_ok (bytes "/isolinux/isolinux.cfg") = false →
      open_ok (bytes "//isolinux.cfg") = false →
      iso_load_config FILENAME_MAX open_ok
        = { ret := -1, chdir := none,
            probes := [bytes "/boot/isolinux/isolinux.cfg", bytes "/isolinux/isolinux.cfg",
                       bytes "//isolinux.cfg"] }) ∧
    ((iso_load_config FILENAME_MAX open_ok).ret = -1 ↔
      (open_ok (bytes "/boot/isolinux/isolinux.cfg") = false ∧
       open_ok (bytes "/isolinux/isolinux.cfg") = false ∧
       open_ok (bytes "//isolinux.cfg") = false)) ∧
    ((iso_load_config FILENAME_MAX open_ok).ret = -1 ↔
      (iso_load_config FILENAME_MAX open_ok).chdir = none) := by
  have h1 : config_name FILENAME_MAX (bytes "/boot/isolinux") = bytes "/boot/isolinux/isolinux.cfg" := by
    rw [config_name_eq _ _ (by
      have : (bytes "/boot/isolinux").length = 14 := by decide
      omega)]
    decide
  have h2 : config_name FILENAME_MAX (bytes "/isolinux") = bytes "/isolinux/isolinux.cfg" := by
    rw [config_name_eq _ _ (by
      have : (bytes "/isolinux").length = 9 := by decide
      omega)]
    decide
  have h3 : config_name FILENAME_MAX (bytes "/") = bytes "//isolinux.cfg" := by
    rw [config_name_eq _ _ (by
      have : (bytes "/").length = 1 := by decide
      omega)]
    decide
  cases ha : open_ok (bytes "/boot/isolinux/isolinux.cfg") <;>
  cases hb : open_ok (bytes "/isolinux/isolinux.cfg") <;>
  cases hc : open_ok (bytes "//isolinux.cfg") <;>
  simp [iso_load_config, load_config_loop, search_directories, h1, h2, h3, ha, hb, hc]

/-- C17 at an oracle that finds the file under `/isolinux` and under `/` but
not under `/boot/isolinux`: the call selects `/isolinux` after two probes. -/
theorem iso_load_config_priority_witness :
    iso_load_config 256
        (fun p => p == bytes "/isolinux/isolinux.cfg" || p == bytes "//isolinux.cfg")
      = { ret := 0, chdir := some (bytes "/isolinux"),
          probes := [bytes "/boot/isolinux/isolinux.cfg", bytes "/isolinux/isolinux.cfg"] } :=
  (iso_load_config_priority 256
    (fun p => p == bytes "/isolinux/isolinux.cfg" || p == bytes "//isolinux.cfg")
    (by decide)).2.1 (by decide) (by decide)

/-! ## Name codec: converting a converted name -/

theorem iso_tolower_idem (c : Nat) : iso_tolower (iso_tolower c) = iso_tolower c := by
  simp only [iso_tolower]
  split_ifs <;> omega

theorem iso_tolower_ne_semicolon (c : Nat) (h : c ≠ 59) : iso_tolower c ≠ 59 := by
  unfold iso_tolower
  split <;> omega

theorem drop_dots_rev_subset : ∀ (l : List Nat) (x : Nat), x ∈ drop_dots_rev l → x ∈ l
  | [], _, h => h
  | [_], _, h => h
  | c :: b :: rest, x, h => by
    rw [drop_dots_rev.eq_3] at h
    split at h
    · exact List.mem_cons_of_mem _ (drop_dots_rev_subset (b :: rest) x h)
    · exact h

theorem drop_dots_rev_idem : ∀ l : List Nat, drop_dots_rev (drop_dots_rev l) = drop_dots_rev l
  | [] => rfl
  | [_] => rfl
  | c :: b :: rest => by
    rw [drop_dots_rev.eq_3]
    split
    · exact drop_dots_rev_idem (b :: rest)
    · rename_i hc
      rw [drop_dots_rev.eq_3, if_neg hc]

theorem strip_trailing_dots_idem (l : List Nat) :
    strip_trailing_dots (strip_trailing_dots l) = strip_trailing_dots l := by
  simp only [strip_trailing_dots, List.reverse_reverse, drop_dots_rev_idem]

theorem strip_trailing_dots_subset (l : List Nat) (x : Nat) (h : x ∈ strip_trailing_dots l) :
    x ∈ l := by
  simp only [strip_trailing_dots, List.mem_reverse] at h
  simpa using drop_dots_rev_subset _ x h

/-- The general path of `iso_convert_name` (source lines 95-108) on a name
field with a terminator at an index up to `len`: the buffer it leaves is the
specified string, a zero byte, and the stripped dots left behind. -/
theorem convert_general_out (src : List Nat) (len : Nat)
    (hstop : ∃ k : Nat, k ≤ len ∧ (src[k]? = some 0 ∨ src[k]? = some 59)) :
    ∃ rest,
      (match convert_copy src [] with
        | none => none
        | some buf => some (convert_done buf (convert_strip buf buf.length)))
      = some (strip_trailing_dots ((before_version src len).map iso_tolower) ++ 0 :: rest,
              (strip_trailing_dots ((before_version src len).map iso_tolower)).length) := by
  obtain ⟨buf, n, hG, hc, hn⟩ := iso_convert_name_general src len hstop
  have h0 : iso_convert_name src 0 = some (buf, n) := by
    unfold iso_convert_name
    simpa using hG
  obtain ⟨name, rest, hr, hzf⟩ := iso_convert_name_shape src 0 (buf, n) h0
  simp only [Prod.mk.injEq] at hr
  obtain ⟨hb, _⟩ := hr
  rw [hb, cstr_append_zero name rest hzf] at hc
  refine ⟨rest, ?_⟩
  rw [hG, hn, hb, hc]

/-- The properties of a name left by the general path of the conversion: no
zero byte, no `;`, every byte fixed by `iso_tolower`, no strippable dot. -/
theorem converted_normal (src : List Nat) (len : Nat) :
    (∀ c ∈ strip_trailing_dots ((before_version src len).map iso_tolower),
      c ≠ 0 ∧ c ≠ 59 ∧ iso_tolower c = c) ∧
    strip_trailing_dots (strip_trailing_dots ((before_version src len).map iso_tolower))
      = strip_trailing_dots ((before_version src len).map iso_tolower) := by
  refine ⟨?_, strip_trailing_dots_idem _⟩
  intro c hc
  have hc2 := strip_trailing_dots_subset _ c hc
  obtain ⟨d, hd, rfl⟩ := List.mem_map.1 hc2
  have hp := List.mem_takeWhile_imp hd
  simp only [Bool.and_eq_true, bne_iff_ne, ne_eq] at hp
  exact ⟨fun hz => hp.1 ((iso_tolower_eq_zero d).1 hz), iso_tolower_ne_semicolon d hp.2,
    iso_tolower_idem d⟩

/-- Converting a converted name again, with `len` its length: the name comes
back unchanged, unless it is the single byte 1. -/
theorem convert_converted (name rest : List Nat)
    (hn : ∀ c ∈ name, c ≠ 0 ∧ c ≠ 59 ∧ iso_tolower c = c)
    (hs : strip_trailing_dots name = name) (h1 : name ≠ [1]) :
    ∃ rest2, iso_convert_name (name ++ 0 :: rest) name.length
      = some (name ++ 0 :: rest2, name.length) := by
  have hstop : ∃ k : Nat, k ≤ name.length ∧
      ((name ++ 0 :: rest)[k]? = some 0 ∨ (name ++ 0 :: rest)[k]? = some 59) :=
    ⟨name.length, Nat.le_refl _,
      Or.inl (by rw [List.getElem?_append_right (Nat.le_refl _)]; simp)⟩
  obtain ⟨rest2, hG⟩ := convert_general_out (name ++ 0 :: rest) name.length hstop
  have hbv : before_version (name ++ 0 :: rest) name.length = name := by
    unfold before_version
    rw [List.take_left]
    apply List.takeWhile_eq_self_iff.2
    intro c hc
    have := hn c hc
    simp [this.1, this.2.1]
  have hmap : name.map iso_tolower = name := by
    conv_rhs => rw [← List.map_id name]
    apply List.map_congr_left
    intro c hc
    exact (hn c hc).2.2
  rw [hbv, hmap, hs] at hG
  refine ⟨rest2, ?_⟩
  unfold iso_convert_name
  simp only
  split
  · rename_i hlen
    cases name with
    | nil => simp at hlen
    | cons c t =>
      cases t with
      | nil =>
        have hc0 : c ≠ 0 := (hn c (by simp)).1
        have hc1 : c ≠ 1 := fun h => h1 (by rw [h])
        simp only [List.cons_append, List.nil_append, if_neg hc0, if_neg hc1]
        simpa using hG
      | cons d t => simp at hlen
  · exact hG

/-- Applying `iso_convert_name` to its own output, with `len` the length it
returned: both calls succeed on a name field with a terminator at an index up
to `len`, and the second call gives back the string and length of the first
exactly when the first result is neither `..` nor the single byte 1. -/
theorem iso_convert_name_twice (src : List Nat) (len : Nat)
    (hstop : ∃ k : Nat, k ≤ len ∧ (src[k]? = some 0 ∨ src[k]? = some 59)) :
    ∃ out n out2 n2,
      iso_convert_name src len = some (out, n) ∧
      iso_convert_name out n = some (out2, n2) ∧
      ((cstr out2 = cstr out ∧ n2 = n) ↔ (cstr out ≠ [46, 46] ∧ cstr out ≠ [1])) := by
  obtain ⟨rest, hG⟩ := convert_general_out src len hstop
  obtain ⟨hn, hs⟩ := converted_normal src len
  generalize strip_trailing_dots ((before_version src len).map iso_tolower) = name at hG hn hs
  have hzf : ∀ c ∈ name, c ≠ 0 := fun c hc => (hn c hc).1
  have gen : ∃ out n out2 n2,
      (match convert_copy src [] with
        | none => none
        | some buf => some (convert_done buf (convert_strip buf buf.length))) = some (out, n) ∧
      iso_convert_name out n = some (out2, n2) ∧
      ((cstr out2 = cstr out ∧ n2 = n) ↔ (cstr out ≠ [46, 46] ∧ cstr out ≠ [1])) := by
    by_cases h1 : name = [1]
    · subst h1
      refine ⟨_, _, [46, 46, 0], 2, hG, ?_, ?_⟩
      · simp [iso_convert_name, convert_done]
      · simp [cstr, List.takeWhile_cons]
    · obtain ⟨rest2, h2⟩ := convert_converted name rest hn hs h1
      refine ⟨_, _, _, _, hG, h2, ?_⟩
      rw [cstr_append_zero name rest hzf, cstr_append_zero name rest2 hzf]
      have : name ≠ [46, 46] := by
        intro h
        rw [h] at hs
        revert hs
        decide
      simp [h1, this]
  unfold iso_convert_name
  simp only
  split
  · cases src with
    | nil =>
      obtain ⟨k, _, hk⟩ := hstop
      simp at hk
    | cons c t =>
      simp only
      split
      · exact ⟨_, _, [46, 0], 1, rfl, by decide, by decide⟩
      · split
        · exact ⟨_, _, [46, 0], 1, rfl, by decide, by decide⟩
        · exact gen
  · exact gen

/-- C16, the claim as stated fails: the name field that is the single byte 1
(the parent directory entry) contains no `;` and does not end in `.`; it
converts to `..`, length 2, and converting that result again with len 2 gives
`.`, length 1. -/
theorem iso_convert_name_not_idempotent_counterexample :
    ([1, 0] : List Nat)[1]? = some 0 ∧ 59 ∉ ([1, 0] : List Nat).take 1 ∧
    (([1, 0] : List Nat).take 1).getLast? ≠ some 46 ∧
    iso_convert_name [1, 0] 1 = some ([46, 46, 0], 2) ∧
    iso_convert_name [46, 46, 0] 2 = some ([46, 0], 1) ∧
    cstr [46, 46, 0] = bytes ".." ∧ cstr [46, 0] = bytes "." := by
  decide

/-- C16 as amended: for every name field of `len` bytes, 1 to 255, followed
by a zero byte in its buffer, that contains no `;` and does not end in `.`,
`iso_convert_name` succeeds on the field and again on its own output with
`len` the length it returned, and the second call yields the same string and
the same length as the first exactly when the first result is neither `..`
(the conversion of the single name byte 1) nor the single byte 1.  The proof
uses only the zero byte after the field. -/
theorem iso_convert_name_idempotent (src : List Nat) (len : Nat)
    (_hlen1 : 1 ≤ len) (_hlen2 : len ≤ 255) (hnul : src[len]? = some 0)
    (_hsemi : 59 ∉ src.take len) (_hdot : (src.take len).getLast? ≠ some 46) :
    ∃ out n out2 n2,
      iso_convert_name src len = some (out, n) ∧
      iso_convert_name out n = some (out2, n2) ∧
      ((cstr out2 = cstr out ∧ n2 = n) ↔ (cstr out ≠ [46, 46] ∧ cstr out ≠ [1])) :=
  iso_convert_name_twice src len ⟨len, Nat.le_refl _, Or.inl hnul⟩

/-- The amended C16 at the name field `FOO.TXT` (len 7): it converts to
`foo.txt`, length 7, and so does the result. -/
theorem iso_convert_name_idempotent_witness :
    iso_convert_name (bytes "FOO.TXT" ++ [0]) 7 = some (bytes "foo.txt" ++ [0], 7) ∧
    iso_convert_name (bytes "foo.txt" ++ [0]) 7 = some (bytes "foo.txt" ++ [0], 7) ∧
    ∃ out n out2 n2,
      iso_convert_name (bytes "FOO.TXT" ++ [0]) 7 = some (out, n) ∧
      iso_convert_name out n = some (out2, n2) ∧
      ((cstr out2 = cstr out ∧ n2 = n) ↔ (cstr out ≠ [46, 46] ∧ cstr out ≠ [1])) :=
  ⟨by decide, by decide,
   iso_convert_name_idempotent (bytes "FOO.TXT" ++ [0]) 7 (by decide) (by decide) (by decide)
     (by decide) (by decide)⟩

/-! ## Termination of the directory loops -/

theorem readdir_entry_cases (cache : Nat → List Nat) (s : ReaddirSt) (blk : Nat) :
    (∃ de len nl fo, readdir_entry cache s blk = Step.done (some (de, len, nl), fo) ∧
      de = { block := blk, offset := s.offset } ∧ peek (cache blk) s.offset = some len ∧
      33 ≤ len ∧ s.offset + len ≤ BLOCK_SIZE) ∨
    readdir_entry cache s blk = Step.fault ∨
    ∃ st1, readdir_entry cache s blk = Step.next st1 ∧ st1.i = s.i ∧ st1.data = none := by
  unfold readdir_entry
  cases hp : peek (cache blk) s.offset with
  | none => exact Or.inr (Or.inl rfl)
  | some len =>
    simp only
    by_cases hc : len < 33 ∨ s.offset + len > BLOCK_SIZE
    · rw [if_pos hc]
      exact Or.inr (Or.inr ⟨_, rfl, rfl, rfl⟩)
    · rw [if_neg hc]
      cases hn : peek (cache blk) (s.offset + DE_NAME_LEN) with
      | none => exact Or.inr (Or.inl rfl)
      | some nl =>
        refine Or.inl ⟨_, len, nl, _, rfl, rfl, rfl, ?_, ?_⟩ <;> omega

/-- Every pass through the loop of `iso_readdir` returns `NULL` at the end of
the directory, or leaves the loop with a record of at least 33 bytes that
ends at or before byte `BLOCK_SIZE` of its block, or reads outside the memory
of its block, or gives up its block and goes round again.  The counter `i`
goes up by one exactly in a pass that fetches a block. -/
theorem readdir_step_cases (cache : Nat → List Nat) (inode : Inode) (st : ReaddirSt) :
    (∃ fo, readdir_step cache inode st = Step.done (none, fo)) ∨
    (∃ de len nl fo, readdir_step cache inode st = Step.done (some (de, len, nl), fo) ∧
      peek (cache de.block) de.offset = some len ∧ 33 ≤ len ∧
      de.offset + len ≤ BLOCK_SIZE) ∨
    readdir_step cache inode st = Step.fault ∨
    ∃ st1, readdir_step cache inode st = Step.next st1 ∧ st1.data = none ∧
      st1.i = st.i + (match st.data with
                      | none => if st.i + 1 > inode.blocks then 0 else 1
                      | some _ => 0) := by
  unfold readdir_step
  cases hd : st.data with
  | none =>
    simp only
    by_cases hlast : st.i + 1 > inode.blocks
    · rw [if_pos hlast]
      exact Or.inl ⟨_, rfl⟩
    · rw [if_neg hlast]
      rcases readdir_entry_cases cache
          { st with i := st.i + 1, block := st.block + 1, data := some st.block } st.block
        with ⟨de, len, nl, fo, h, hde, h1, h2, h3⟩ | h | ⟨st1, h, hi, hn⟩
      · subst hde
        exact Or.inr (Or.inl ⟨_, len, nl, fo, h, h1, h2, h3⟩)
      · exact Or.inr (Or.inr (Or.inl h))
      · exact Or.inr (Or.inr (Or.inr ⟨st1, h, hn, by rw [if_neg hlast]; exact hi⟩))
  | some blk =>
    simp only
    rcases readdir_entry_cases cache st blk
      with ⟨de, len, nl, fo, h, hde, h1, h2, h3⟩ | h | ⟨st1, h, hi, hn⟩
    · subst hde
      exact Or.inr (Or.inl ⟨_, len, nl, fo, h, h1, h2, h3⟩)
    · exact Or.inr (Or.inr (Or.inl h))
    · exact Or.inr (Or.inr (Or.inr ⟨st1, h, hn, by simpa using hi⟩))

theorem and_block_mask (y : Nat) (hy : y < 2 ^ 32) :
    y &&& (2 ^ 32 - 1 - (BLOCK_SIZE - 1)) = y / 2048 * 2048 := by
  have hB : BLOCK_SIZE = 2048 := by decide
  rw [hB]
  apply Nat.eq_of_testBit_eq
  intro i
  have hM : (2 ^ 32 - 1 - (2048 - 1) : Nat) = 2 ^ 11 * (2 ^ 21 - 1) := by norm_num
  have hD : (2048 : Nat) = 2 ^ 11 := by norm_num
  rw [hM, hD, Nat.testBit_and, Nat.mul_comm (y / 2 ^ 11), Nat.testBit_mul_pow_two,
    Nat.testBit_mul_pow_two, Nat.testBit_two_pow_sub_one, ← Nat.shiftRight_eq_div_pow,
    Nat.testBit_shiftRight]
  by_cases h : 11 ≤ i
  · have e : 11 + (i - 11) = i := by omega
    simp only [h, decide_True, Bool.true_and, e, ge_iff_le]
    by_cases h2 : i - 11 < 21
    · simp [h2]
    · have : y < 2 ^ i := lt_of_lt_of_le hy (Nat.pow_le_pow_right (by norm_num) (by omega))
      simp [h2, Nat.testBit_lt_two_pow this]
  · simp [h]

theorem and_block_low (x : Nat) : x &&& (BLOCK_SIZE - 1) = x % 2048 := by
  have hB : BLOCK_SIZE = 2048 := by decide
  have hD : (2048 : Nat) = 2 ^ 11 := by norm_num
  rw [hB, hD, Nat.and_pow_two_sub_one_eq_mod]

theorem shift_block_right (x : Nat) : x >>> BLOCK_SHIFT = x / 2048 := by
  have hS : BLOCK_SHIFT = 11 := rfl
  rw [hS, Nat.shiftRight_eq_div_pow]

/-- The value `(x + BLOCK_SIZE - 1) & ~(BLOCK_SIZE - 1)` in 32 bits: `x`
rounded up to a multiple of 2048, modulo `2 ^ 32`. -/
theorem round_up_block_eq (x : Nat) :
    round_up_block x = (x + 2047) % 2 ^ 32 / 2048 * 2048 := by
  have hB : BLOCK_SIZE = 2048 := by decide
  unfold round_up_block
  rw [and_block_mask _ (Nat.mod_lt _ (by norm_num)), hB]
  rfl

theorem round_up_block_idem (x : Nat) :
    round_up_block (round_up_block x) = round_up_block x := by
  rw [round_up_block_eq (round_up_block x), round_up_block_eq x]
  omega

theorem round_up_block_of_aligned (x : Nat) (hx : x < 2 ^ 32) (ha : x % 2048 = 0) :
    round_up_block x = x := by
  rw [round_up_block_eq]
  omega

theorem readdir_step_offsets (cache : Nat → List Nat) (inode : Inode) (st : ReaddirSt) :
    (∀ r fo, readdir_step cache inode st = Step.done (r, fo) → fo = st.file_offset) ∧
    (∀ st1, readdir_step cache inode st = Step.next st1 →
      st1.file_offset = round_up_block st.file_offset) := by
  have key : ∀ (s : ReaddirSt) (blk : Nat),
      (∀ r fo, readdir_entry cache s blk = Step.done (r, fo) → fo = s.file_offset) ∧
      (∀ st1, readdir_entry cache s blk = Step.next st1 →
        st1.file_offset = round_up_block s.file_offset) := by
    intro s blk
    unfold readdir_entry
    cases peek (cache blk) s.offset with
    | none => exact ⟨fun r fo h => (by cases h), fun st1 h => (by cases h)⟩
    | some len =>
      simp only
      split
      · exact ⟨fun r fo h => (by cases h), fun st1 h => (by cases h; rfl)⟩
      · cases peek (cache blk) (s.offset + DE_NAME_LEN) with
        | none => exact ⟨fun r fo h => (by cases h), fun st1 h => (by cases h)⟩
        | some nl => exact ⟨fun r fo h => (by cases h; rfl), fun st1 h => (by cases h)⟩
  unfold readdir_step
  cases st.data with
  | none =>
    simp only
    split
    · exact ⟨fun r fo h => (by cases h; rfl), fun st1 h => (by cases h)⟩
    · exact key _ _
  | some blk => exact key _ _

/-- What the loop of `iso_readdir` returns as `file->offset`: the value it
started with when the first pass leaves the loop, and that value rounded up to
a block boundary when the first pass gives up its block. -/
theorem readdir_loop_file_offset (cache : Nat → List Nat) (inode : Inode) :
    ∀ (fuel : Nat) (st : ReaddirSt) (r : Option (DePtr × Nat × Nat)) (fo : Nat),
      readdir_loop cache inode fuel st = Res.ok (r, fo) →
      (readdir_step cache inode st = Step.done (r, fo) ∧ fo = st.file_offset) ∨
      ((∃ st1, readdir_step cache inode st = Step.next st1) ∧
        fo = round_up_block st.file_offset) := by
  intro fuel
  induction fuel with
  | zero => intro st r fo h; cases h
  | succ fuel ih =>
    intro st r fo h
    rw [readdir_loop] at h
    obtain ⟨hdone, hnext⟩ := readdir_step_offsets cache inode st
    cases hs : readdir_step cache inode st with
    | done x =>
      rw [hs] at h
      simp only [Res.ok.injEq] at h
      subst h
      exact Or.inl ⟨rfl, hdone r fo hs⟩
    | fault => rw [hs] at h; cases h
    | next st1 =>
      rw [hs] at h
      simp only at h
      refine Or.inr ⟨⟨st1, rfl⟩, ?_⟩
      have h1 := hnext st1 hs
      rcases ih st1 r fo h with ⟨_, h2⟩ | ⟨_, h2⟩
      · rw [h2, h1]
      · rw [h2, h1, round_up_block_idem]

/-- The record with which the loop of `iso_readdir` leaves: its length byte is
at least 33 and it ends at or before byte `BLOCK_SIZE` of its block. -/
theorem readdir_loop_record (cache : Nat → List Nat) (inode : Inode) :
    ∀ (fuel : Nat) (st : ReaddirSt) (de : DePtr) (len nl fo : Nat),
      readdir_loop cache inode fuel st = Res.ok (some (de, len, nl), fo) →
      peek (cache de.block) de.offset = some len ∧ 33 ≤ len ∧
        de.offset + len ≤ BLOCK_SIZE := by
  intro fuel
  induction fuel with
  | zero => intro st de len nl fo h; cases h
  | succ fuel ih =>
    intro st de len nl fo h
    rw [readdir_loop] at h
    rcases readdir_step_cases cache inode st with ⟨fo1, hs⟩ | ⟨de1, len1, nl1, fo1, hs, hr⟩ | hs |
      ⟨st1, hs, _⟩
    · rw [hs] at h; cases h
    · rw [hs] at h
      cases h
      exact hr
    · rw [hs] at h; cases h
    · rw [hs] at h
      exact ih st1 de len nl fo h

/-- A successful `iso_readdir` call, taken apart: the loop left with a record
and with `file->offset` equal to the returned `d_off`; the file offset after
the call is `d_off` plus the record length. -/
theorem iso_readdir_some (cache : Nat → List Nat) (malloc_ok : Bool) (file : File)
    (d : Dirent) (file1 : File)
    (h : iso_readdir cache malloc_ok file = Res.ok (some d, file1)) :
    ∃ de len nl flags,
      readdir_loop cache file.inode (file.inode.blocks + 1) (readdir_init file)
        = Res.ok (some (de, len, nl), d.d_off) ∧
      file1 = { file with offset := (d.d_off + len) % 2 ^ 32 } ∧
      de.byte cache DE_FLAGS = some flags ∧
      iso_convert_name (de.name cache) nl = some (d.d_name, d.d_reclen) ∧
      d.d_type = get_inode_mode flags ∧ d.d_ino = 0 := by
  unfold iso_readdir at h
  simp only at h
  unfold readdir_init
  cases hl : readdir_loop cache file.inode (file.inode.blocks + 1)
      { i := file.offset >>> BLOCK_SHIFT,
        block := (file.inode.pvt + (file.offset >>> BLOCK_SHIFT)) % 2 ^ 32,
        offset := file.offset &&& (BLOCK_SIZE - 1), data := none,
        file_offset := file.offset } with
  | timeout => rw [hl] at h; cases h
  | fault => rw [hl] at h; cases h
  | ok r =>
    rw [hl] at h
    obtain ⟨o, fo⟩ := r
    cases o with
    | none => simp at h
    | some t =>
      obtain ⟨de, len, nl⟩ := t
      simp only at h
      cases malloc_ok with
      | false => simp at h
      | true =>
        simp only [if_true] at h
        cases hf : de.byte cache DE_FLAGS with
        | none => rw [hf] at h; simp at h
        | some flags =>
          cases hc : iso_convert_name (de.name cache) nl with
          | none => rw [hf, hc] at h; simp at h
          | some c =>
            obtain ⟨d_name, d_reclen⟩ := c
            rw [hf, hc] at h
            simp only [Res.ok.injEq, Prod.mk.injEq, Option.some.injEq] at h
            obtain ⟨hd, hf1⟩ := h
            subst hd
            exact ⟨de, len, nl, flags, rfl, hf1.symm, hf, hc, rfl, rfl⟩

theorem readdir_step_first_record (cache : Nat → List Nat) (inode : Inode) (st : ReaddirSt)
    (de : DePtr) (len nl fo : Nat) (hd : st.data = none)
    (h : readdir_step cache inode st = Step.done (some (de, len, nl), fo)) :
    de = { block := st.block, offset := st.offset } := by
  unfold readdir_step at h
  rw [hd] at h
  simp only at h
  split at h
  · cases h
  · rcases readdir_entry_cases cache
        { st with i := st.i + 1, block := st.block + 1, data := some st.block } st.block
      with ⟨de1, len1, nl1, fo1, h1, hde, _⟩ | h1 | ⟨st1, h1, _⟩
    · rw [h1] at h
      cases h
      exact hde
    · rw [h1] at h; cases h
    · rw [h1] at h; cases h

theorem readdir_entry_name_len (cache : Nat → List Nat) (s : ReaddirSt) (blk : Nat)
    (de : DePtr) (len nl fo : Nat)
    (h : readdir_entry cache s blk = Step.done (some (de, len, nl), fo)) :
    peek (cache de.block) (de.offset + DE_NAME_LEN) = some nl := by
  unfold readdir_entry at h
  cases hp : peek (cache blk) s.offset with
  | none => rw [hp] at h; cases h
  | some l =>
    rw [hp] at h
    simp only at h
    split at h
    · cases h
    · cases hn : peek (cache blk) (s.offset + DE_NAME_LEN) with
      | none => rw [hn] at h; cases h
      | some n =>
        rw [hn] at h
        cases h
        exact hn

/-- The name length with which the loop of `iso_readdir` leaves is the byte
`name_len` of the record it leaves with. -/
theorem readdir_loop_name_len (cache : Nat → List Nat) (inode : Inode) :
    ∀ (fuel : Nat) (st : ReaddirSt) (de : DePtr) (len nl fo : Nat),
      readdir_loop cache inode fuel st = Res.ok (some (de, len, nl), fo) →
      de.byte cache DE_NAME_LEN = some nl := by
  intro fuel
  induction fuel with
  | zero => intro st de len nl fo h; cases h
  | succ fuel ih =>
    intro st de len nl fo h
    rw [readdir_loop] at h
    cases hs : readdir_step cache inode st with
    | next st1 =>
      rw [hs] at h
      exact ih st1 de len nl fo h
    | fault => rw [hs] at h; cases h
    | done x =>
      rw [hs] at h
      simp only [Res.ok.injEq] at h
      subst h
      unfold readdir_step at hs
      cases hd : st.data with
      | none =>
        rw [hd] at hs
        simp only at hs
        split at hs
        · cases hs
        · exact readdir_entry_name_len cache _ _ de len nl fo hs
      | some blk =>
        rw [hd] at hs
        exact readdir_entry_name_len cache _ _ de len nl fo hs

/-! ## Directory enumeration: the offset returned with an entry -/

/-- C12, the claim as stated fails: the first `iso_readdir` call on the
directory `two_block_dir` returns the 40-byte record at directory offset 0
with `d_off = 0`, the offset of that record itself; the offset of the next
entry, from which the following call resumes, is 40. -/
theorem iso_readdir_d_off_counterexample :
    iso_readdir two_block_dir true { inode := dir_inode 20 1, offset := 0 }
      = Res.ok (some { d_ino := 0, d_off := 0, d_type := Mode.I_FILE, d_reclen := 5,
                       d_name := bytes "a.txt" ++ [0] },
                { inode := dir_inode 20 1, offset := 40 }) := by
  decide

/-- C12 as amended: for every successful `iso_readdir` call, the returned
`d_off` is the value of `file->offset` at which the returned record was
accepted, not the offset of the next entry.  The returned record `de` is the
record with which the loop of the call leaves, together with `file->offset =
d_off`: its length byte `len` is at least 33 and it lies inside its block, and
the kind, the name and the name length of the returned entry are those of
`de`.  The file after the call is the file of the call with offset `d_off +
len`, in 32 bits: the following call resumes there.  When the first pass of
the loop accepts the record, `d_off` is the file offset at the start of the
call, which is the directory byte offset of the returned record (block index
`offset / BLOCK_SIZE`, intra-block offset `offset % BLOCK_SIZE`); when the call
skipped to a later sector, `d_off` is that file offset rounded up to a block
boundary. -/
theorem iso_readdir_d_off (cache : Nat → List Nat) (malloc_ok : Bool) (file : File)
    (d : Dirent) (file1 : File)
    (h : iso_readdir cache malloc_ok file = Res.ok (some d, file1)) :
    ∃ (de : DePtr) (len nl flags : Nat),
      readdir_loop cache file.inode (file.inode.blocks + 1) (readdir_init file)
        = Res.ok (some (de, len, nl), d.d_off) ∧
      peek (cache de.block) de.offset = some len ∧ 33 ≤ len ∧
      de.offset + len ≤ BLOCK_SIZE ∧
      de.byte cache DE_NAME_LEN = some nl ∧
      de.byte cache DE_FLAGS = some flags ∧ d.d_type = get_inode_mode flags ∧
      iso_convert_name (de.name cache) nl = some (d.d_name, d.d_reclen) ∧
      file1 = { file with offset := (d.d_off + len) % 2 ^ 32 } ∧
      ((d.d_off = file.offset ∧
          (∃ r, readdir_step cache file.inode (readdir_init file) = Step.done r) ∧
          de.block = (file.inode.pvt + file.offset / BLOCK_SIZE) % 2 ^ 32 ∧
          de.offset = file.offset % BLOCK_SIZE) ∨
       (d.d_off = round_up_block file.offset ∧
          ∃ st1, readdir_step cache file.inode (readdir_init file) = Step.next st1)) := by
  have hB : BLOCK_SIZE = 2048 := by decide
  obtain ⟨de, len, nl, flags, hl, hf1, hfl, hcv, hty, _⟩ :=
    iso_readdir_some cache malloc_ok file d file1 h
  obtain ⟨h1, h2, h3⟩ := readdir_loop_record cache file.inode _ _ de len nl d.d_off hl
  have hnl := readdir_loop_name_len cache file.inode _ _ de len nl d.d_off hl
  refine ⟨de, len, nl, flags, hl, h1, h2, h3, hnl, hfl, hty, hcv, hf1, ?_⟩
  rcases readdir_loop_file_offset cache file.inode _ _ _ _ hl with ⟨hs, ho⟩ | ⟨hs, ho⟩
  · have hde := readdir_step_first_record cache file.inode (readdir_init file) de len nl d.d_off
      rfl hs
    refine Or.inl ⟨ho, ⟨_, hs⟩, ?_, ?_⟩
    · rw [hde, hB]
      simp only [readdir_init, shift_block_right]
    · rw [hde, hB]
      simp only [readdir_init, and_block_low]
  · exact Or.inr ⟨ho, hs⟩

/-- The amended C12 at a call that skips a sector: in the directory
`three_record_dir` the call from file offset 40 finds no record at offset 40
of block 20, goes on to block 21 and returns the 50-byte record it reads
there at offset 40, with `d_off = 2048`, the file offset 40 rounded up; the
following call resumes at 2048 + 50 = 2098. -/
theorem iso_readdir_d_off_witness :
    iso_readdir three_record_dir true { inode := dir_inode 20 2, offset := 40 }
      = Res.ok (some { d_ino := 0, d_off := 2048, d_type := Mode.I_FILE, d_reclen := 5,
                       d_name := bytes "b.txt" ++ [0] },
                { inode := dir_inode 20 2, offset := 2098 }) ∧
    readdir_loop three_record_dir (dir_inode 20 2) ((dir_inode 20 2).blocks + 1)
        (readdir_init { inode := dir_inode 20 2, offset := 40 })
      = Res.ok (some ({ block := 21, offset := 40 }, 50, 7), 2048) ∧
    ∃ (de : DePtr) (len nl flags : Nat),
      readdir_loop three_record_dir (dir_inode 20 2) ((dir_inode 20 2).blocks + 1)
          (readdir_init { inode := dir_inode 20 2, offset := 40 })
        = Res.ok (some (de, len, nl), 2048) ∧
      peek (three_record_dir de.block) de.offset = some len ∧ 33 ≤ len ∧
      de.offset + len ≤ BLOCK_SIZE ∧
      de.byte three_record_dir DE_NAME_LEN = some nl ∧
      de.byte three_record_dir DE_FLAGS = some flags ∧ Mode.I_FILE = get_inode_mode flags ∧
      iso_convert_name (de.name three_record_dir) nl = some (bytes "b.txt" ++ [0], 5) ∧
      ({ inode := dir_inode 20 2, offset := 2098 } : File)
        = { inode := dir_inode 20 2, offset := (2048 + len) % 2 ^ 32 } ∧
      (((2048 : Nat) = 40 ∧
          (∃ r, readdir_step three_record_dir (dir_inode 20 2)
              (readdir_init { inode := dir_inode 20 2, offset := 40 }) = Step.done r) ∧
          de.block = ((dir_inode 20 2).pvt + 40 / BLOCK_SIZE) % 2 ^ 32 ∧
          de.offset = 40 % BLOCK_SIZE) ∨
       ((2048 : Nat) = round_up_block 40 ∧
          ∃ st1, readdir_step three_record_dir (dir_inode 20 2)
              (readdir_init { inode := dir_inode 20 2, offset := 40 }) = Step.next st1)) :=
  ⟨by decide, by decide,
   iso_readdir_d_off three_record_dir true { inode := dir_inode 20 2, offset := 40 }
     { d_ino := 0, d_off := 2048, d_type := Mode.I_FILE, d_reclen := 5,
       d_name := bytes "b.txt" ++ [0] }
     { inode := dir_inode 20 2, offset := 2098 } (by decide)⟩

/-! ## Blocks packed with records -/

theorem peek_append_right (a b : List Nat) (k : Nat) :
    peek (a ++ b) (a.length + k) = peek b k := by
  induction a with
  | nil => simp
  | cons x t ih =>
    have : (x :: t).length + k = (t.length + k) + 1 := by simp; omega
    rw [List.cons_append, this, peek, ih]

theorem peek_append_left (a b : List Nat) (k : Nat) (h : k < a.length) :
    peek (a ++ b) k = peek a k := by
  rw [peek_eq_getElem?, peek_eq_getElem?, List.getElem?_append_left h]

theorem peek_length (a : List Nat) : peek a a.length = none := by
  rw [peek_eq_getElem?]
  simp

theorem convert_copy_append (src tail : List Nat) :
    ∀ out buf, convert_copy src out = some buf → convert_copy (src ++ tail) out = some buf := by
  induction src with
  | nil => intro out buf h; simp [convert_copy] at h
  | cons c t ih =>
    intro out buf h
    rw [List.cons_append]
    unfold convert_copy at h ⊢
    split
    · rename_i h0; rw [if_pos h0] at h; exact h
    · rename_i h0
      rw [if_neg h0] at h
      split
      · rename_i h1; rw [if_pos h1] at h; exact h
      · rename_i h1
        rw [if_neg h1] at h
        exact ih _ _ h

/-- A conversion that succeeds on a buffer gives the same result when more
memory is readable after the buffer. -/
theorem iso_convert_name_append (src tail : List Nat) (len : Nat) (r : List Nat × Nat)
    (h : iso_convert_name src len = some r) : iso_convert_name (src ++ tail) len = some r := by
  have gen : (match convert_copy src [] with
        | none => none
        | some buf => some (convert_done buf (convert_strip buf buf.length))) = some r →
      (match convert_copy (src ++ tail) [] with
        | none => none
        | some buf => some (convert_done buf (convert_strip buf buf.length))) = some r := by
    intro hg
    cases hc : convert_copy src [] with
    | none => rw [hc] at hg; cases hg
    | some buf =>
      rw [hc] at hg
      rw [convert_copy_append src tail [] buf hc]
      exact hg
  unfold iso_convert_name at h ⊢
  simp only at h ⊢
  split
  · rename_i hl
    rw [if_pos hl] at h
    cases src with
    | nil => simp at h
    | cons c t =>
      simp only [List.cons_append] at h ⊢
      split
      · rename_i hc; rw [if_pos hc] at h; exact h
      · rename_i hc
        rw [if_neg hc] at h
        split
        · rename_i hc0; rw [if_pos hc0] at h; exact h
        · rename_i hc0
          rw [if_neg hc0] at h
          exact gen h
  · rename_i hl
    rw [if_neg hl] at h
    exact gen h

theorem iso_compare_name_append (src tail : List Nat) (len : Nat) (file_name : List Nat)
    (b : Bool) (h : iso_compare_name src len file_name = some b) :
    iso_compare_name (src ++ tail) len file_name = some b := by
  unfold iso_compare_name at h ⊢
  cases hc : iso_convert_name src len with
  | none => rw [hc] at h; cases h
  | some r =>
    rw [hc] at h
    rw [iso_convert_name_append src tail len r hc]
    exact h

/-- A name field that holds a zero byte is converted without reading past
it. -/
theorem iso_convert_name_isSome (src : List Nat) (len : Nat) (h : 0 ∈ src) :
    ∃ r, iso_convert_name src len = some r := by
  have hstop : ∃ k : Nat, src[k]? = some 0 ∨ src[k]? = some 59 := by
    obtain ⟨k, hk⟩ := List.getElem?_of_mem h
    exact ⟨k, Or.inl hk⟩
  have hcopy := convert_copy_eq src [] hstop
  unfold iso_convert_name
  simp only [hcopy]
  split
  · cases src with
    | nil => simp at h
    | cons c t =>
      simp only
      split
      · exact ⟨_, rfl⟩
      · split
        · exact ⟨_, rfl⟩
        · exact ⟨_, rfl⟩
  · exact ⟨_, rfl⟩

theorem readdir_init_in_first_block (inode : Inode) (off : Nat) (hpvt : inode.pvt < 2 ^ 32)
    (hoff : off < BLOCK_SIZE) :
    readdir_init { inode := inode, offset := off }
      = { i := 0, block := inode.pvt, offset := off, data := none, file_offset := off } := by
  have hB : BLOCK_SIZE = 2048 := by decide
  rw [hB] at hoff
  unfold readdir_init
  simp only [shift_block_right, and_block_low]
  have h1 : off / 2048 = 0 := Nat.div_eq_of_lt hoff
  have h2 : off % 2048 = off := Nat.mod_eq_of_lt hoff
  rw [h1, h2, Nat.add_zero, Nat.mod_eq_of_lt hpvt]

theorem iso_readdir_loop_eq (cache : Nat → List Nat) (malloc_ok : Bool) (file : File) :
    iso_readdir cache malloc_ok file
      = match readdir_loop cache file.inode (file.inode.blocks + 1) (readdir_init file) with
        | Res.timeout => Res.timeout
        | Res.fault => Res.fault
        | Res.ok (none, file_offset) => Res.ok (none, { file with offset := file_offset })
        | Res.ok (some (de, de_len, de_name_len), file_offset) =>
          if malloc_ok then
            match de.byte cache DE_FLAGS, iso_convert_name (de.name cache) de_name_len with
            | some flags, some (d_name, d_reclen) =>
              Res.ok (some { d_ino := 0, d_off := file_offset, d_type := get_inode_mode flags,
                             d_reclen := d_reclen, d_name := d_name },
                      { file with offset := (file_offset + de_len) % 2 ^ 32 })
            | _, _ => Res.fault
          else Res.ok (none, { file with offset := file_offset }) := rfl

/-- One `iso_readdir` call at a record: the block of the directory holds the
bytes `pre`, then the record `r` (its first byte is its length, at least 33,
and it ends at or before byte `BLOCK_SIZE`), then `rest`.  The call from file
offset `pre.length` returns the entry of `r`, with the name converted from the
memory that starts at the name field, and leaves the file offset after `r`; it
faults when the conversion reads past the end of the block memory. -/
theorem iso_readdir_at_record (cache : Nat → List Nat) (inode : Inode)
    (pre r rest : List Nat) (flags nl : Nat)
    (hmem : cache inode.pvt = pre ++ (r ++ rest)) (hpvt : inode.pvt < 2 ^ 32)
    (hblocks : 1 ≤ inode.blocks)
    (hlen : peek r 0 = some r.length) (h33 : 33 ≤ r.length)
    (hend : pre.length + r.length ≤ BLOCK_SIZE)
    (hfl : peek r DE_FLAGS = some flags) (hnl : peek r DE_NAME_LEN = some nl) :
    iso_readdir cache true { inode := inode, offset := pre.length }
      = match iso_convert_name (r.drop DE_NAME ++ rest) nl with
        | some (d_name, d_reclen) =>
          Res.ok (some { d_ino := 0, d_off := pre.length, d_type := get_inode_mode flags,
                         d_reclen := d_reclen, d_name := d_name },
                  { inode := inode, offset := pre.length + r.length })
        | none => Res.fault := by
  have hB : BLOCK_SIZE = 2048 := by decide
  have hoff : pre.length < BLOCK_SIZE := by omega
  have hp0 : peek (cache inode.pvt) pre.length = some r.length := by
    rw [hmem]
    have := peek_append_right pre (r ++ rest) 0
    rw [Nat.add_zero] at this
    rw [this, peek_append_left r rest 0 (by omega), hlen]
  have hp32 : peek (cache inode.pvt) (pre.length + DE_NAME_LEN) = some nl := by
    rw [hmem, peek_append_right, peek_append_left r rest _ (by simp only [DE_NAME_LEN]; omega),
      hnl]
  have hp25 : peek (cache inode.pvt) (pre.length + DE_FLAGS) = some flags := by
    rw [hmem, peek_append_right, peek_append_left r rest _ (by simp only [DE_FLAGS]; omega),
      hfl]
  have hname : (cache inode.pvt).drop (pre.length + DE_NAME) = r.drop DE_NAME ++ rest := by
    rw [hmem, ← List.drop_drop, List.drop_left,
      List.drop_append_of_le_length (by simp only [DE_NAME]; omega)]
  have hloop : readdir_loop cache inode (inode.blocks + 1)
      (readdir_init { inode := inode, offset := pre.length })
      = Res.ok (some ({ block := inode.pvt, offset := pre.length }, r.length, nl),
                pre.length) := by
    rw [readdir_init_in_first_block inode pre.length hpvt hoff, readdir_loop, readdir_step]
    simp only
    rw [if_neg (by omega), readdir_entry]
    simp only [hp0, hp32]
    rw [if_neg (by omega)]
  rw [iso_readdir_loop_eq]
  simp only [hloop, if_true, DePtr.byte, DePtr.name, hp25, hname]
  have hmod : (pre.length + r.length) % 2 ^ 32 = pre.length + r.length := by
    apply Nat.mod_eq_of_lt
    omega
  cases iso_convert_name (r.drop DE_NAME ++ rest) nl with
  | none => rfl
  | some c =>
    obtain ⟨d_name, d_reclen⟩ := c
    simp only [hmod]

/-- The `iso_readdir` call after the last record of a one-block directory: the
block holds the bytes `recs` and then `rest`; either `recs` fills the block, or
the byte after `recs` is no acceptable record length.  The call returns `NULL`
and leaves the file offset at the block boundary. -/
theorem iso_readdir_at_end (cache : Nat → List Nat) (inode : Inode) (recs rest : List Nat)
    (hmem : cache inode.pvt = recs ++ rest) (hpvt : inode.pvt < 2 ^ 32)
    (hblocks : inode.blocks = 1) (hle : recs.length ≤ BLOCK_SIZE)
    (hstop : recs.length = BLOCK_SIZE ∨
      ∃ b, peek rest 0 = some b ∧ (b < 33 ∨ recs.length + b > BLOCK_SIZE)) :
    iso_readdir cache true { inode := inode, offset := recs.length }
      = Res.ok (none, { inode := inode, offset := round_up_block recs.length }) := by
  have hB : BLOCK_SIZE = 2048 := by decide
  rw [iso_readdir_loop_eq]
  by_cases hfull : recs.length = BLOCK_SIZE
  · have hinit : readdir_init { inode := inode, offset := recs.length }
        = { i := 1, block := (inode.pvt + 1) % 2 ^ 32, offset := 0, data := none,
            file_offset := recs.length } := by
      unfold readdir_init
      simp only [shift_block_right, and_block_low]
      rw [hfull, hB]
    rw [hinit]
    simp only [hblocks]
    rw [readdir_loop, readdir_step]
    simp only [hblocks]
    rw [if_pos (by omega)]
    simp only
    rw [round_up_block_of_aligned _ (by omega) (by omega)]
  · rcases hstop with hstop | ⟨b, hb, hrej⟩
    · exact absurd hstop hfull
    · have hoff : recs.length < BLOCK_SIZE := by omega
      have hp0 : peek (cache inode.pvt) recs.length = some b := by
        rw [hmem]
        have := peek_append_right recs rest 0
        rw [Nat.add_zero] at this
        rw [this, hb]
      rw [readdir_init_in_first_block inode recs.length hpvt hoff]
      simp only [hblocks]
      rw [readdir_loop, readdir_step]
      simp only [hblocks]
      rw [if_neg (by omega), readdir_entry]
      simp only [hp0]
      rw [if_pos hrej]
      simp only
      rw [readdir_loop, readdir_step]
      simp only [hblocks]
      rw [if_pos (by omega)]

/-- Successive `iso_readdir` calls on a one-block directory whose block holds
the records `pre ++ post` back to back from offset 0 and then the bytes `pad`:
from the file offset after `pre`, the calls return the entries of `post` in
order and then `NULL`, a conversion that reads past the block memory ending
the enumeration with a fault. -/
theorem readdir_calls_packed (cache : Nat → List Nat) (inode : Inode) (pad : List Nat)
    (hpvt : inode.pvt < 2 ^ 32) (hblocks : inode.blocks = 1) :
    ∀ (post pre : List (List Nat)),
      cache inode.pvt = (pre ++ post).flatten ++ pad →
      (∀ r ∈ post, peek r 0 = some r.length ∧ 33 ≤ r.length) →
      (pre ++ post).flatten.length ≤ BLOCK_SIZE →
      ((pre ++ post).flatten.length = BLOCK_SIZE ∨
        ∃ b, peek pad 0 = some b ∧ (b < 33 ∨ (pre ++ post).flatten.length + b > BLOCK_SIZE)) →
      readdir_calls cache true (post.length + 1)
          { inode := inode, offset := pre.flatten.length }
        = expected_entries pre.flatten.length post pad := by
  intro post
  induction post with
  | nil =>
    intro pre hmem _ hle hstop
    rw [List.append_nil] at hmem hle hstop
    simp only [List.length_nil, Nat.zero_add, readdir_calls, expected_entries]
    rw [iso_readdir_at_end cache inode pre.flatten pad hmem hpvt hblocks hle hstop]
  | cons r post ih =>
    intro pre hmem hvalid hle hstop
    obtain ⟨hlen, h33⟩ := hvalid r (by simp)
    have hmem2 : cache inode.pvt = pre.flatten ++ (r ++ (post.flatten ++ pad)) := by
      rw [hmem]
      simp only [List.flatten_append, List.flatten_cons, List.append_assoc]
    have htot : (pre ++ r :: post).flatten.length
        = pre.flatten.length + r.length + post.flatten.length := by
      simp only [List.flatten_append, List.flatten_cons, List.length_append]
      omega
    obtain ⟨flags, hfl⟩ := peek_isSome r DE_FLAGS (by simp only [DE_FLAGS]; omega)
    obtain ⟨nl, hnl⟩ := peek_isSome r DE_NAME_LEN (by simp only [DE_NAME_LEN]; omega)
    have hcall := iso_readdir_at_record cache inode pre.flatten r (post.flatten ++ pad) flags nl
      hmem2 hpvt (by omega) hlen h33 (by omega) hfl hnl
    have hassoc : (pre ++ [r]) ++ post = pre ++ r :: post := by simp
    have hpre : (pre ++ [r]).flatten.length = pre.flatten.length + r.length := by
      simp only [List.flatten_append, List.flatten_cons, List.flatten_nil, List.append_nil,
        List.length_append]
    have hih := ih (pre ++ [r]) (by rw [hassoc]; exact hmem)
      (fun x hx => hvalid x (List.mem_cons_of_mem _ hx)) (by rw [hassoc]; exact hle)
      (by rw [hassoc]; exact hstop)
    rw [hpre] at hih
    rw [List.length_cons, readdir_calls, hcall]
    simp only [expected_entries, record_entry, hfl, hnl]
    cases iso_convert_name (r.drop DE_NAME ++ (post.flatten ++ pad)) nl with
    | none => rfl
    | some c =>
      obtain ⟨d_name, d_reclen⟩ := c
      simp only
      rw [hih]

theorem expected_entries_ok (pad : List Nat) (hpad : 0 ∈ pad) :
    ∀ (post : List (List Nat)) (off : Nat), (∀ r ∈ post, 33 ≤ r.length) →
      ∃ ds : List Dirent, ds.length = post.length ∧
        expected_entries off post pad = ds.map (fun d => Res.ok (some d)) ++ [Res.ok none] := by
  intro post
  induction post with
  | nil => intro off _; exact ⟨[], rfl, rfl⟩
  | cons r post ih =>
    intro off hvalid
    have h33 := hvalid r (by simp)
    obtain ⟨flags, hfl⟩ := peek_isSome r DE_FLAGS (by simp only [DE_FLAGS]; omega)
    obtain ⟨nl, hnl⟩ := peek_isSome r DE_NAME_LEN (by simp only [DE_NAME_LEN]; omega)
    obtain ⟨c, hc⟩ := iso_convert_name_isSome (r.drop DE_NAME ++ (post.flatten ++ pad)) nl
      (by simp [hpad])
    obtain ⟨ds, hlen, hds⟩ := ih (off + r.length) (fun x hx => hvalid x (List.mem_cons_of_mem _ hx))
    obtain ⟨d_name, d_reclen⟩ := c
    refine ⟨{ d_ino := 0, d_off := off, d_type := get_inode_mode flags, d_reclen := d_reclen,
              d_name := d_name } :: ds, by simp [hlen], ?_⟩
    simp only [expected_entries, record_entry, hfl, hnl, hc, hds, List.map_cons, List.cons_append]

/-- Enumeration of a one-block directory: the block holds the records
`records` back to back from offset 0, each with its length (at least 33) in
its first byte, all ending at or before byte `BLOCK_SIZE`, followed by zero
bytes up to `BLOCK_SIZE`.  Successive `iso_readdir` calls from file offset 0
return the entries of the records in order and then `NULL`, unless the name
conversion of a record reads past the end of the block memory, which ends the
enumeration with a fault; no conversion does so when the records end before
byte `BLOCK_SIZE`. -/
theorem iso_readdir_single_block (cache : Nat → List Nat) (inode : Inode)
    (records : List (List Nat)) (hpvt : inode.pvt < 2 ^ 32) (hblocks : inode.blocks = 1)
    (hmem : cache inode.pvt = mk_block records)
    (hvalid : ∀ r ∈ records, peek r 0 = some r.length ∧ 33 ≤ r.length)
    (hle : records.flatten.length ≤ BLOCK_SIZE) :
    readdir_calls cache true (records.length + 1) { inode := inode, offset := 0 }
      = expected_entries 0 records (List.replicate (BLOCK_SIZE - records.flatten.length) 0) ∧
    (records.flatten.length < BLOCK_SIZE →
      ∃ ds : List Dirent, ds.length = records.length ∧
        readdir_calls cache true (records.length + 1) { inode := inode, offset := 0 }
          = ds.map (fun d => Res.ok (some d)) ++ [Res.ok none]) := by
  have hstop : ([] ++ records).flatten.length = BLOCK_SIZE ∨
      ∃ b, peek (List.replicate (BLOCK_SIZE - records.flatten.length) 0) 0 = some b ∧
        (b < 33 ∨ ([] ++ records).flatten.length + b > BLOCK_SIZE) := by
    rw [List.nil_append]
    by_cases hfull : records.flatten.length = BLOCK_SIZE
    · exact Or.inl hfull
    · right
      refine ⟨0, ?_, Or.inl (by omega)⟩
      have : BLOCK_SIZE - records.flatten.length = (BLOCK_SIZE - records.flatten.length - 1) + 1 := by
        omega
      rw [this, List.replicate_succ]
      rfl
  have h1 := readdir_calls_packed cache inode
    (List.replicate (BLOCK_SIZE - records.flatten.length) 0) hpvt hblocks records []
    (by rw [List.nil_append, hmem, mk_block]) hvalid (by rw [List.nil_append]; exact hle) hstop
  simp only [List.flatten_nil, List.length_nil] at h1
  refine ⟨h1, fun hlt => ?_⟩
  rw [h1]
  apply expected_entries_ok
  · have : BLOCK_SIZE - records.flatten.length = (BLOCK_SIZE - records.flatten.length - 1) + 1 := by
      omega
    rw [this, List.replicate_succ]
    simp
  · exact fun r hr => (hvalid r hr).2

theorem flatten_replicate_length (n : Nat) (r : List Nat) :
    (List.replicate n r).flatten.length = n * r.length := by
  induction n with
  | zero => simp
  | succ n ih =>
    rw [List.replicate_succ, List.flatten_cons, List.length_append, ih]
    rw [Nat.succ_mul]
    omega

theorem mk_record_length (len flags extent size : Nat) (name : List Nat)
    (h : 33 + name.length ≤ len) : (mk_record len flags extent size name).length = len := by
  unfold mk_record
  rw [List.length_append, List.length_append, List.length_replicate]
  simp only [List.length_cons, List.length_nil]
  omega

theorem packed_records_valid :
    ∀ r ∈ packed_records, peek r 0 = some r.length ∧ 33 ≤ r.length := by
  have key : ∀ (len flags extent size : Nat) (name : List Nat), 33 + name.length ≤ len →
      peek (mk_record len flags extent size name) 0
          = some (mk_record len flags extent size name).length ∧
        33 ≤ (mk_record len flags extent size name).length := by
    intro len flags extent size name h
    rw [mk_record_length _ _ _ _ _ h]
    exact ⟨rfl, by omega⟩
  intro r hr
  unfold packed_records at hr
  rcases List.mem_append.1 hr with hr | hr
  · rw [List.eq_of_mem_replicate hr]
    exact key _ _ _ _ _ (by decide)
  · simp only [List.mem_cons, List.mem_singleton, List.not_mem_nil, or_false] at hr
    rcases hr with rfl | rfl | rfl
    · exact key _ _ _ _ _ (by decide)
    · exact key _ _ _ _ _ (by decide)
    · exact key _ _ _ _ _ (by decide)

theorem packed_records_length : packed_records.flatten.length = BLOCK_SIZE := by
  have hB : BLOCK_SIZE = 2048 := by decide
  unfold packed_records
  rw [List.flatten_append, List.length_append, flatten_replicate_length]
  simp only [List.flatten_cons, List.flatten_nil, List.length_append, List.length_nil]
  rw [mk_record_length _ _ _ _ _ (by decide), mk_record_length _ _ _ _ _ (by decide),
    mk_record_length _ _ _ _ _ (by decide), mk_record_length _ _ _ _ _ (by decide), hB]

theorem packed_dir_mem : packed_dir 20 = packed_records.flatten ++ [] := by
  have : packed_dir 20 = mk_block packed_records := rfl
  rw [this, mk_block, packed_records_length, Nat.sub_self]
  rfl

theorem packed_entries :
    expected_entries 0 packed_records []
      = (List.range 7).map (fun j =>
          Res.ok (some { d_ino := 0, d_off := 250 * j, d_type := Mode.I_FILE, d_reclen := 5,
                         d_name := bytes "a.txt" ++ [0] }))
        ++ [Res.ok (some { d_ino := 0, d_off := 1750, d_type := Mode.I_FILE, d_reclen := 5,
                           d_name := bytes "b.txt" ++ [0] }),
            Res.ok (some { d_ino := 0, d_off := 1881, d_type := Mode.I_FILE, d_reclen := 5,
                           d_name := bytes "c.txt" ++ [0] }),
            Res.fault] := by
  decide

theorem packed_entries_readable :
    expected_entries 0 packed_records [0]
      = (List.range 7).map (fun j =>
          Res.ok (some { d_ino := 0, d_off := 250 * j, d_type := Mode.I_FILE, d_reclen := 5,
                         d_name := bytes "a.txt" ++ [0] }))
        ++ [Res.ok (some { d_ino := 0, d_off := 1750, d_type := Mode.I_FILE, d_reclen := 5,
                           d_name := bytes "b.txt" ++ [0] }),
            Res.ok (some { d_ino := 0, d_off := 1881, d_type := Mode.I_FILE, d_reclen := 5,
                           d_name := bytes "c.txt" ++ [0] }),
            Res.ok (some { d_ino := 0, d_off := 2012, d_type := Mode.I_DIR, d_reclen := 3,
                           d_name := bytes "doc" ++ [0] }),
            Res.ok none] := by
  decide

/-! ## Directory enumeration of one block -/

/-- C11 at a failing input: the one-block directory `packed_dir`, whose block
of 2048 bytes is filled exactly by ten back-to-back records, each with its
length (at least 33) in its first byte; the last record, of the directory
`DOC`, ends at byte 2048 with its name.  Nine calls from file offset 0 return
the first nine records; the tenth call accepts the record at offset 2012 and
its name conversion reads past the end of the block memory.  When one more
byte (a zero) is readable after the block, the tenth call returns `doc` and
the eleventh `NULL`. -/
theorem iso_readdir_packed_block_fault :
    (packed_dir 20).length = BLOCK_SIZE ∧
    packed_records.length = 10 ∧
    (∀ r ∈ packed_records, peek r 0 = some r.length ∧ 33 ≤ r.length) ∧
    packed_records.flatten.length = BLOCK_SIZE ∧
    readdir_calls packed_dir true 11 { inode := dir_inode 20 1, offset := 0 }
      = (List.range 7).map (fun j =>
          Res.ok (some { d_ino := 0, d_off := 250 * j, d_type := Mode.I_FILE, d_reclen := 5,
                         d_name := bytes "a.txt" ++ [0] }))
        ++ [Res.ok (some { d_ino := 0, d_off := 1750, d_type := Mode.I_FILE, d_reclen := 5,
                           d_name := bytes "b.txt" ++ [0] }),
            Res.ok (some { d_ino := 0, d_off := 1881, d_type := Mode.I_FILE, d_reclen := 5,
                           d_name := bytes "c.txt" ++ [0] }),
            Res.fault] ∧
    readdir_calls (fun b => packed_dir b ++ [0]) true 11 { inode := dir_inode 20 1, offset := 0 }
      = (List.range 7).map (fun j =>
          Res.ok (some { d_ino := 0, d_off := 250 * j, d_type := Mode.I_FILE, d_reclen := 5,
                         d_name := bytes "a.txt" ++ [0] }))
        ++ [Res.ok (some { d_ino := 0, d_off := 1750, d_type := Mode.I_FILE, d_reclen := 5,
                           d_name := bytes "b.txt" ++ [0] }),
            Res.ok (some { d_ino := 0, d_off := 1881, d_type := Mode.I_FILE, d_reclen := 5,
                           d_name := bytes "c.txt" ++ [0] }),
            Res.ok (some { d_ino := 0, d_off := 2012, d_type := Mode.I_DIR, d_reclen := 3,
                           d_name := bytes "doc" ++ [0] }),
            Res.ok none] := by
  have hlen10 : packed_records.length = 10 := by decide
  refine ⟨?_, hlen10, packed_records_valid, packed_records_length, ?_, ?_⟩
  · have : packed_dir 20 = mk_block packed_records := rfl
    rw [this, mk_block_length _ (Nat.le_of_eq packed_records_length)]
  · have h := readdir_calls_packed packed_dir (dir_inode 20 1) [] (by decide) rfl
      packed_records [] (by rw [List.nil_append]; exact packed_dir_mem)
      packed_records_valid (by rw [List.nil_append]; exact Nat.le_of_eq packed_records_length)
      (Or.inl (by rw [List.nil_append]; exact packed_records_length))
    rw [hlen10] at h
    rw [← packed_entries]
    exact h
  · have h := readdir_calls_packed (fun b => packed_dir b ++ [0]) (dir_inode 20 1) [0]
      (by decide) rfl packed_records []
      (by
        rw [List.nil_append]
        show packed_dir 20 ++ [0] = packed_records.flatten ++ [0]
        rw [packed_dir_mem, List.append_nil])
      packed_records_valid (by rw [List.nil_append]; exact Nat.le_of_eq packed_records_length)
      (Or.inl (by rw [List.nil_append]; exact packed_records_length))
    rw [hlen10] at h
    rw [← packed_entries_readable]
    exact h

/-! ## Directory lookup in a block filled to its last byte -/

/-- The lookup loop over records that do not match: the block holds the bytes
`pre`, then the records `post` back to back, then `pad`; from a state that
holds the block at the offset after `pre`, `post.length` passes accept one
record each and leave the loop at the offset after the last record. -/
theorem find_loop_packed (cache : Nat → List Nat) (dname : List Nat) (inode : Inode)
    (blk : Nat) (pad : List Nat) :
    ∀ (post : List (List Nat)) (pre : List Nat) (fuel : Nat) (st : FindSt),
      cache blk = pre ++ (post.flatten ++ pad) →
      st.data = some blk → st.offset = pre.length →
      (∀ r ∈ post, peek r 0 = some r.length ∧ 33 ≤ r.length ∧
        ∃ nl, peek r DE_NAME_LEN = some nl ∧
          ∀ tail, iso_compare_name (r.drop DE_NAME ++ tail) nl dname = some false) →
      pre.length + post.flatten.length ≤ BLOCK_SIZE →
      find_loop cache dname inode (post.length + fuel) st
        = find_loop cache dname inode fuel
            { st with offset := pre.length + post.flatten.length } := by
  intro post
  induction post with
  | nil =>
    intro pre fuel st _ _ hoff _ _
    simp only [List.length_nil, Nat.zero_add, List.flatten_nil, Nat.add_zero]
    rw [← hoff]
  | cons r post ih =>
    intro pre fuel st hmem hdata hoff hvalid hle
    obtain ⟨hlen, h33, nl, hnl, hcmp⟩ := hvalid r (by simp)
    have hfl : (r :: post).flatten.length = r.length + post.flatten.length := by
      simp only [List.flatten_cons, List.length_append]
    rw [hfl] at hle
    have hmem2 : cache blk = pre ++ (r ++ (post.flatten ++ pad)) := by
      rw [hmem]
      simp only [List.flatten_cons, List.append_assoc]
    have hp0 : peek (cache blk) st.offset = some r.length := by
      rw [hmem2, hoff]
      have := peek_append_right pre (r ++ (post.flatten ++ pad)) 0
      rw [Nat.add_zero] at this
      rw [this, peek_append_left r _ 0 (by omega), hlen]
    have hp32 : peek (cache blk) (st.offset + DE_NAME_LEN) = some nl := by
      rw [hmem2, hoff, peek_append_right,
        peek_append_left r _ _ (by simp only [DE_NAME_LEN]; omega), hnl]
    have hname : (cache blk).drop (st.offset + DE_NAME)
        = r.drop DE_NAME ++ (post.flatten ++ pad) := by
      rw [hmem2, hoff, ← List.drop_drop, List.drop_left,
        List.drop_append_of_le_length (by simp only [DE_NAME]; omega)]
    have hm : de_matches cache dname { block := blk, offset := st.offset } = some false := by
      simp only [de_matches, DePtr.byte, DePtr.name, hp32, hname]
      exact hcmp _
    have hstep : find_step cache dname inode st
        = Step.next { st with offset := st.offset + r.length, data := some blk } := by
      unfold find_step
      rw [hdata]
      simp only
      rw [find_entry_accept cache dname st blk r.length hp0 (by omega), hm]
    have hfuel : (r :: post).length + fuel = (post.length + fuel) + 1 := by
      simp only [List.length_cons]
      omega
    rw [hfuel, find_loop, hstep]
    simp only
    have hih := ih (pre ++ r) fuel { st with offset := st.offset + r.length, data := some blk }
      (by rw [hmem2, List.append_assoc]) rfl (by simp only [List.length_append, hoff])
      (fun x hx => hvalid x (List.mem_cons_of_mem _ hx))
      (by simp only [List.length_append]; omega)
    rw [hih]
    simp only [List.length_append, hfl, Nat.add_assoc, hdata]

/-- The first pass of the lookup loop fetches the first block: it is the pass
made from the state that holds that block at offset 0. -/
theorem find_step_fetch (cache : Nat → List Nat) (dname : List Nat) (inode : Inode)
    (st : FindSt) (hd : st.data = none) (hi : st.i + 1 ≤ inode.blocks) :
    find_step cache dname inode st
      = find_step cache dname inode
          { i := st.i + 1, dir_block := st.dir_block + 1, offset := 0,
            data := some st.dir_block } := by
  unfold find_step
  rw [hd]
  simp only
  rw [if_neg (by omega)]

theorem full_records_valid (dname : List Nat)
    (hcmp : iso_compare_name ((mk_record 64 0 100 5000 (bytes "A.TXT;1")).drop DE_NAME) 7 dname
      = some false) :
    ∀ r ∈ full_records, peek r 0 = some r.length ∧ 33 ≤ r.length ∧
      ∃ nl, peek r DE_NAME_LEN = some nl ∧
        ∀ tail, iso_compare_name (r.drop DE_NAME ++ tail) nl dname = some false := by
  intro r hr
  rw [List.eq_of_mem_replicate hr, mk_record_length _ _ _ _ _ (by decide)]
  exact ⟨rfl, by omega, 7, by decide,
    fun tail => iso_compare_name_append _ tail 7 dname false hcmp⟩

theorem full_records_length : full_records.flatten.length = BLOCK_SIZE := by
  unfold full_records
  rw [flatten_replicate_length, mk_record_length _ _ _ _ _ (by decide)]
  decide

theorem full_block_dir_mem : full_block_dir 20 = [] ++ (full_records.flatten ++ []) := by
  have : full_block_dir 20 = mk_block full_records := rfl
  rw [this, mk_block, full_records_length, Nat.sub_self]
  rfl

theorem find_loop_fetch (cache : Nat → List Nat) (dname : List Nat) (inode : Inode)
    (st : FindSt) (fuel : Nat) (hd : st.data = none) (hi : st.i + 1 ≤ inode.blocks) :
    find_loop cache dname inode (fuel + 1) st
      = find_loop cache dname inode (fuel + 1)
          { i := st.i + 1, dir_block := st.dir_block + 1, offset := 0,
            data := some st.dir_block } := by
  rw [find_loop, find_loop, find_step_fetch cache dname inode st hd hi]

/-- The lookup of a name that no record carries, in a one-block directory
whose block holds the records `full_records` and then the bytes `pad`: after
32 passes the loop holds block 20 at offset `BLOCK_SIZE`. -/
theorem find_loop_full_block (cache : Nat → List Nat) (pad : List Nat)
    (hmem : cache 20 = full_records.flatten ++ pad) (fuel : Nat) :
    find_loop cache (bytes "nope" ++ [0]) (dir_inode 20 1) (32 + fuel)
        { i := 0, dir_block := 20, offset := 0, data := none }
      = find_loop cache (bytes "nope" ++ [0]) (dir_inode 20 1) fuel
          { i := 1, dir_block := 21, offset := BLOCK_SIZE, data := some 20 } := by
  have h32 : full_records.length = 32 := by decide
  have hfuel : 32 + fuel = (31 + fuel) + 1 := by omega
  rw [hfuel, find_loop_fetch _ _ _ _ _ rfl (by decide), ← hfuel, ← h32]
  have h := find_loop_packed cache (bytes "nope" ++ [0]) (dir_inode 20 1) 20 pad full_records []
    fuel { i := 1, dir_block := 21, offset := 0, data := some 20 }
    (by rw [List.nil_append]; exact hmem) rfl rfl
    (full_records_valid _ (by decide))
    (by rw [full_records_length]; simp)
  rw [h, full_records_length]
  simp

/-- C20 at a failing input: the one-block directory `full_block_dir`, whose
block of 2048 bytes is filled exactly by 32 records of 64 bytes, and the
lookup of the name `nope`, which no record carries.  The 32nd record ends at
byte 2048 and is accepted (`offset > BLOCK_SIZE` is false), so the loop goes
round with `offset = 2048` and the block still held, and the next pass reads
the length byte at offset 2048, outside the 2048-byte block: the lookup
faults.  When one more byte (a zero) is readable after the block, the same
lookup returns not-found. -/
theorem iso_find_entry_reads_at_block_size :
    (full_block_dir 20).length = BLOCK_SIZE ∧
    full_records.length = 32 ∧
    (∀ r ∈ full_records, peek r 0 = some r.length ∧ 33 ≤ r.length) ∧
    full_records.flatten.length = BLOCK_SIZE ∧
    (∀ fuel, find_loop full_block_dir (bytes "nope" ++ [0]) (dir_inode 20 1) (32 + fuel)
        { i := 0, dir_block := 20, offset := 0, data := none }
      = find_loop full_block_dir (bytes "nope" ++ [0]) (dir_inode 20 1) fuel
          { i := 1, dir_block := 21, offset := BLOCK_SIZE, data := some 20 }) ∧
    peek (full_block_dir 20) BLOCK_SIZE = none ∧
    find_step full_block_dir (bytes "nope" ++ [0]) (dir_inode 20 1)
        { i := 1, dir_block := 21, offset := BLOCK_SIZE, data := some 20 } = Step.fault ∧
    iso_find_entry full_block_dir (bytes "nope" ++ [0]) (dir_inode 20 1) = Res.fault ∧
    iso_find_entry (fun b => full_block_dir b ++ [0]) (bytes "nope" ++ [0]) (dir_inode 20 1)
      = Res.ok none := by
  have hB : BLOCK_SIZE = 2048 := by decide
  have hmem : full_block_dir 20 = full_records.flatten ++ [] := by
    rw [full_block_dir_mem, List.nil_append]
  have hlen : (full_block_dir 20).length = BLOCK_SIZE := by
    rw [hmem, List.append_nil, full_records_length]
  have hpeek : peek (full_block_dir 20) BLOCK_SIZE = none := by
    rw [← hlen]
    exact peek_length _
  have hstep : find_step full_block_dir (bytes "nope" ++ [0]) (dir_inode 20 1)
      { i := 1, dir_block := 21, offset := BLOCK_SIZE, data := some 20 } = Step.fault := by
    unfold find_step
    simp only
    exact find_entry_fault _ _ _ _ hpeek
  have hvalid : ∀ r ∈ full_records, peek r 0 = some r.length ∧ 33 ≤ r.length := fun r hr =>
    ⟨(full_records_valid (bytes "nope" ++ [0]) (by decide) r hr).1,
     (full_records_valid (bytes "nope" ++ [0]) (by decide) r hr).2.1⟩
  refine ⟨hlen, by decide, hvalid, full_records_length,
    fun fuel => find_loop_full_block full_block_dir [] hmem fuel, hpeek, hstep, ?_, ?_⟩
  · show find_loop full_block_dir (bytes "nope" ++ [0]) (dir_inode 20 1) (32 + (2017 + 1))
        { i := 0, dir_block := 20, offset := 0, data := none } = Res.fault
    rw [find_loop_full_block full_block_dir [] hmem, find_loop, hstep]
  · have hmem1 : (fun b => full_block_dir b ++ [0]) 20 = full_records.flatten ++ [0] := by
      show full_block_dir 20 ++ [0] = full_records.flatten ++ [0]
      rw [hmem, List.append_nil]
    have hpeek1 : peek ((fun b => full_block_dir b ++ [0]) 20) BLOCK_SIZE = some 0 := by
      rw [hmem1, ← full_records_length]
      have := peek_append_right full_records.flatten [0] 0
      rw [Nat.add_zero] at this
      rw [this]
      rfl
    show find_loop (fun b => full_block_dir b ++ [0]) (bytes "nope" ++ [0]) (dir_inode 20 1)
        (32 + (2016 + 1 + 1)) { i := 0, dir_block := 20, offset := 0, data := none }
      = Res.ok none
    rw [find_loop_full_block _ [0] hmem1, find_loop]
    have hs1 : find_step (fun b => full_block_dir b ++ [0]) (bytes "nope" ++ [0])
        (dir_inode 20 1) { i := 1, dir_block := 21, offset := BLOCK_SIZE, data := some 20 }
        = Step.next { i := 1, dir_block := 21, offset := BLOCK_SIZE + 0, data := none } := by
      unfold find_step
      simp only
      exact find_entry_reject _ _ _ 20 0 hpeek1 (Or.inl (by omega))
    rw [hs1]
    simp only
    rw [find_loop]
    have hs2 : find_step (fun b => full_block_dir b ++ [0]) (bytes "nope" ++ [0])
        (dir_inode 20 1) { i := 1, dir_block := 21, offset := BLOCK_SIZE + 0, data := none }
        = Step.done none := by
      unfold find_step
      simp only
      rw [if_pos (by decide)]
    rw [hs2]

/-! ## Name comparison: the array `iso_file_name` -/

/-- One pass of the lookup loop at a record: the block held by the loop has
the bytes `pre`, then the record `r` (its first byte is its length, at least
33, and it ends at or before byte `BLOCK_SIZE`), then `rest`.  The pass is
decided by the comparison of the memory from the name field on. -/
theorem find_step_at_record (cache : Nat → List Nat) (dname : List Nat) (inode : Inode)
    (blk : Nat) (pre r rest : List Nat) (nl : Nat) (st : FindSt)
    (hmem : cache blk = pre ++ (r ++ rest)) (hdata : st.data = some blk)
    (hoff : st.offset = pre.length) (hlen : peek r 0 = some r.length) (h33 : 33 ≤ r.length)
    (hend : pre.length + r.length ≤ BLOCK_SIZE) (hnl : peek r DE_NAME_LEN = some nl) :
    find_step cache dname inode st
      = match iso_compare_name (r.drop DE_NAME ++ rest) nl dname with
        | none => Step.fault
        | some true => Step.done (some { block := blk, offset := st.offset })
        | some false => Step.next { st with offset := st.offset + r.length, data := some blk } := by
  have hp0 : peek (cache blk) st.offset = some r.length := by
    rw [hmem, hoff]
    have := peek_append_right pre (r ++ rest) 0
    rw [Nat.add_zero] at this
    rw [this, peek_append_left r _ 0 (by omega), hlen]
  have hp32 : peek (cache blk) (st.offset + DE_NAME_LEN) = some nl := by
    rw [hmem, hoff, peek_append_right,
      peek_append_left r _ _ (by simp only [DE_NAME_LEN]; omega), hnl]
  have hname : (cache blk).drop (st.offset + DE_NAME) = r.drop DE_NAME ++ rest := by
    rw [hmem, hoff, ← List.drop_drop, List.drop_left,
      List.drop_append_of_le_length (by simp only [DE_NAME]; omega)]
  unfold find_step
  rw [hdata]
  simp only
  rw [find_entry_accept cache dname st blk r.length hp0 (by omega)]
  simp only [de_matches, DePtr.byte, DePtr.name, hp32, hname]

theorem replicate_records_valid (n : Nat) (r : List Nat) (nl : Nat) (dname : List Nat)
    (hlen : peek r 0 = some r.length) (h33 : 33 ≤ r.length)
    (hnl : peek r DE_NAME_LEN = some nl)
    (hcmp : iso_compare_name (r.drop DE_NAME) nl dname = some false) :
    ∀ x ∈ List.replicate n r, peek x 0 = some x.length ∧ 33 ≤ x.length ∧
      ∃ nl, peek x DE_NAME_LEN = some nl ∧
        ∀ tail, iso_compare_name (x.drop DE_NAME ++ tail) nl dname = some false := by
  intro x hx
  rw [List.eq_of_mem_replicate hx]
  exact ⟨hlen, h33, nl, hnl, fun tail => iso_compare_name_append _ tail nl dname false hcmp⟩

theorem tail_dir_mem :
    tail_dir 20
      = [] ++ ((List.replicate 8 (mk_record 250 0 100 5000 (bytes "A.TXT;1"))).flatten
          ++ (mk_record 40 2 200 2048 (bytes "SUBDIRS") ++ List.replicate 8 1)) := by
  have : tail_dir 20 = tail_records.flatten ++ List.replicate 8 1 := rfl
  rw [this, tail_records]
  simp only [List.flatten_append, List.flatten_cons, List.flatten_nil, List.append_nil,
    List.nil_append, List.append_assoc]

theorem tail_prefix_length :
    (List.replicate 8 (mk_record 250 0 100 5000 (bytes "A.TXT;1"))).flatten.length = 2000 := by
  rw [flatten_replicate_length, mk_record_length _ _ _ _ _ (by decide)]

/-- The lookup in `tail_dir` of a name that differs from `a.txt` in its first
character: eight passes decline the records of `A.TXT;1`, and the ninth pass,
at the record of `SUBDIRS`, faults when the comparison of the memory from its
name field on does. -/
theorem find_loop_tail (dname : List Nat)
    (hcmp : iso_compare_name ((mk_record 250 0 100 5000 (bytes "A.TXT;1")).drop DE_NAME) 7 dname
      = some false)
    (hlast : iso_compare_name
      ((mk_record 40 2 200 2048 (bytes "SUBDIRS")).drop DE_NAME ++ List.replicate 8 1) 7 dname
      = none) :
    iso_find_entry tail_dir dname (dir_inode 20 1) = Res.fault := by
  have hB : BLOCK_SIZE = 2048 := by decide
  have h8 : (List.replicate 8 (mk_record 250 0 100 5000 (bytes "A.TXT;1"))).length = 8 := by
    decide
  have hvalid := replicate_records_valid 8 (mk_record 250 0 100 5000 (bytes "A.TXT;1")) 7 dname
    (by rw [mk_record_length _ _ _ _ _ (by decide)]; rfl)
    (by rw [mk_record_length _ _ _ _ _ (by decide)]; omega) (by decide) hcmp
  show find_loop tail_dir dname (dir_inode 20 1) ((8 + 2041) + 1)
      { i := 0, dir_block := 20, offset := 0, data := none } = Res.fault
  rw [find_loop_fetch _ _ _ _ _ rfl (by decide)]
  have hfuel : (8 + 2041) + 1 = 8 + (2041 + 1) := by omega
  rw [hfuel, ← h8]
  have h := find_loop_packed tail_dir dname (dir_inode 20 1) 20
    (mk_record 40 2 200 2048 (bytes "SUBDIRS") ++ List.replicate 8 1)
    (List.replicate 8 (mk_record 250 0 100 5000 (bytes "A.TXT;1"))) [] (2041 + 1)
    { i := 1, dir_block := 21, offset := 0, data := some 20 }
    tail_dir_mem rfl rfl hvalid (by rw [tail_prefix_length, hB]; simp)
  rw [h, find_loop]
  have hstep := find_step_at_record tail_dir dname (dir_inode 20 1) 20
    (List.replicate 8 (mk_record 250 0 100 5000 (bytes "A.TXT;1"))).flatten
    (mk_record 40 2 200 2048 (bytes "SUBDIRS")) (List.replicate 8 1) 7
    { i := 1, dir_block := 21,
      offset := ([] : List Nat).length
        + (List.replicate 8 (mk_record 250 0 100 5000 (bytes "A.TXT;1"))).flatten.length,
      data := some 20 }
    (by rw [tail_dir_mem, List.nil_append]) rfl (by simp)
    (by rw [mk_record_length _ _ _ _ _ (by decide)]; rfl)
    (by rw [mk_record_length _ _ _ _ _ (by decide)]; omega)
    (by rw [tail_prefix_length, mk_record_length _ _ _ _ _ (by decide), hB]; omega)
    (by decide)
  rw [hlast] at hstep
  rw [hstep]

/-- C1 at a failing input: the one-block directory `tail_dir`, whose block of
2048 bytes holds nine records and whose record chain stops at offset 2040,
below 2048.  The ninth record, at offset 2000, is the directory `SUBDIRS`
(name length 7); its name bytes end the record at byte 2040 and the eight
bytes up to the end of the block hold neither a zero byte nor a `;`.  By its
name length the record is named `subdirs`, and no record is named `nope`.  The
lookup of `nope` declines the first eight records and then, comparing the
ninth, reads past the end of the block memory: it faults where the claim has
it return `NULL`, and so does `iso_iget`; the lookup of `subdirs` faults at
the same read where the claim has it return the ninth record. -/
theorem iso_find_entry_name_overread :
    (tail_dir 20).length = BLOCK_SIZE ∧
    chain_stop (tail_dir 20) = 2040 ∧
    dir_records tail_dir 20 1
      = (List.range 8).map (fun j => { block := 20, offset := 250 * j })
        ++ [{ block := 20, offset := 2000 }] ∧
    DePtr.byte tail_dir { block := 20, offset := 2000 } DE_NAME_LEN = some 7 ∧
    DePtr.name tail_dir { block := 20, offset := 2000 }
      = bytes "SUBDIRS" ++ List.replicate 8 1 ∧
    convert_name_spec (bytes "SUBDIRS" ++ List.replicate 8 1) 7 = bytes "subdirs" ∧
    iso_find_entry tail_dir (bytes "nope" ++ [0]) (dir_inode 20 1) = Res.fault ∧
    iso_find_entry tail_dir (bytes "subdirs" ++ [0]) (dir_inode 20 1) = Res.fault ∧
    iso_iget tail_dir true (bytes "nope" ++ [0]) (dir_inode 20 1)
      = (Res.fault, dir_inode 20 1) := by
  have hnope := find_loop_tail (bytes "nope" ++ [0]) (by decide) (by decide)
  have hsub := find_loop_tail (bytes "subdirs" ++ [0]) (by decide) (by decide)
  refine ⟨?_, by decide, by decide, by decide, ?_, by decide, hnope, hsub, ?_⟩
  · rw [tail_dir_mem, List.nil_append, List.length_append, tail_prefix_length,
      List.length_append, mk_record_length _ _ _ _ _ (by decide), List.length_replicate]
    decide
  · show (tail_dir 20).drop (2000 + DE_NAME) = bytes "SUBDIRS" ++ List.replicate 8 1
    rw [tail_dir_mem, List.nil_append, ← tail_prefix_length, ← List.drop_drop, List.drop_left]
    decide
  · rw [iso_iget, hnope]

end Iso9660
